import Mathlib

/-!
Verification of the document decomposition and chunking pipeline of
`rag/utils.py` (langchain-rag-flask).

Strings are modelled as `List Char`.  Python's machine integers are
unbounded, so `Int`/`Nat` model them directly.  Each Python function of
the pipeline is embedded as a computable Lean definition of the same
name (up to Lean naming rules); the format loaders, whose effects are
file writes and list appends, are embedded as pure functions producing
an explicit trace of events (successful file writes and emitted chunks).
-/

namespace Rag

/-- ASCII whitespace recognised by Python's `str.split()` (the model
covers the standard ASCII whitespace characters). -/
def pyIsSpace (c : Char) : Bool :=
  c == ' ' || c == '\t' || c == '\n' || c == '\r' || c == '\x0b' || c == '\x0c'

/-- Accumulator-based splitter: `splitWsAux s acc` is Python
`s.split()` applied after the (reversed) pending word `acc`. -/
def splitWsAux : List Char → List Char → List (List Char)
  | [], acc => if acc = [] then [] else [acc.reverse]
  | c :: cs, acc =>
    if pyIsSpace c then
      if acc = [] then splitWsAux cs []
      else acc.reverse :: splitWsAux cs []
    else splitWsAux cs (c :: acc)

/-- `_norm_ws(s)`: `" ".join((s or "").split())`. -/
def normWs (s : List Char) : List Char :=
  List.intercalate [' '] (splitWsAux s [])

/-- Python slice `s[i:j]` for a nonnegative lower index `i` and an
arbitrary integer upper index `j` (negative `j` counts from the end,
both bounds clamped to the string). -/
def pySlice (s : List Char) (i : Nat) (j : Int) : List Char :=
  (s.drop i).take
    (((if j < 0 then max (j + (s.length : Int)) 0 else min j (s.length : Int))
      - min (i : Int) (s.length : Int)).toNat)

/-- The `while i < len(text)` loop of `_chunk_text`.  The loop variable
`i` advances by `step ≥ 1` each iteration, so `s.length` iterations
always suffice; the structural fuel argument makes that bound explicit
(`chunkText` passes `s.length` as fuel, which is never exhausted). -/
def chunkLoopAux : Nat → List Char → Int → Nat → Nat → List (List Char)
  | 0, _, _, _, _ => []
  | fuel + 1, s, size, step, i =>
    if i < s.length then
      pySlice s i ((i : Int) + size) :: chunkLoopAux fuel s size step (i + step)
    else []

/-- `CHUNK_SIZE = 900`. -/
def CHUNK_SIZE : Int := 900

/-- `CHUNK_OVERLAP = 150`. -/
def CHUNK_OVERLAP : Int := 150

/-- `_chunk_text(text, size, overlap)`: normalize whitespace, return
`[]` on empty, otherwise greedily slice `text[i:i+size]` stepping by
`max(size - overlap, 1)`. -/
def chunkText (text : List Char) (size overlap : Int) : List (List Char) :=
  if normWs text = [] then []
  else chunkLoopAux (normWs text).length (normWs text) size
    (max (size - overlap) 1).toNat 0

/-- Ceiling division on naturals, `(a + b - 1) / b`; the number of loop
iterations of `_chunk_text` on a normalized string of length `a` with
step `b`. -/
def cdiv (a b : Nat) : Nat := (a + b - 1) / b

/-- "Concatenating the first chunk with each subsequent chunk after
dropping that chunk's first `o` characters" (the reassembly operation
named by the chunk-coverage property). -/
def reassemble (chunks : List (List Char)) (o : Nat) : List Char :=
  match chunks with
  | [] => []
  | c :: cs => c ++ (cs.map (fun d => d.drop o)).flatten

/-- Python `str.strip()` over the modelled whitespace set. -/
def strip (s : List Char) : List Char :=
  ((s.dropWhile pyIsSpace).reverse.dropWhile pyIsSpace).reverse

/-- Python `str.splitlines()` restricted to the `\n`, `\r\n`, `\r`
terminators (the page/slide texts in the model use these). -/
def splitLinesAux : List Char → List Char → List (List Char)
  | [], acc => if acc = [] then [] else [acc.reverse]
  | '\r' :: '\n' :: cs, acc => acc.reverse :: splitLinesAux cs []
  | '\n' :: cs, acc => acc.reverse :: splitLinesAux cs []
  | '\r' :: cs, acc => acc.reverse :: splitLinesAux cs []
  | c :: cs, acc => splitLinesAux cs (c :: acc)

def splitLines (s : List Char) : List (List Char) := splitLinesAux s []

/-- `" ".join(xs)`. -/
def joinSp (xs : List (List Char)) : List Char := List.intercalate [' '] xs

/-- `"\n".join(xs)`. -/
def joinNl (xs : List (List Char)) : List Char := List.intercalate ['\n'] xs

/-- `_slug(s)`: keep alphanumerics and `-`, `_`, `.`; replace the rest
with `_`. -/
def slug (s : List Char) : List Char :=
  s.map (fun c => if c.isAlphanum || c == '-' || c == '_' || c == '.' then c else '_')

/-- `os.path.basename` (POSIX separator). -/
def basename (p : List Char) : List Char :=
  (p.reverse.takeWhile (fun c => !(c == '/'))).reverse

/-- `os.path.splitext(p)[1]`: the suffix of the final path component
starting at its last dot, unless every character before that dot in
the component is itself a dot. -/
def extOf (p : List Char) : List Char :=
  if ((basename p).dropWhile (fun c => c == '.')).contains '.' then
    '.' :: ((basename p).reverse.takeWhile (fun c => !(c == '.'))).reverse
  else []

/-- `os.path.splitext(p)[0]`. -/
def rootOf (p : List Char) : List Char := p.take (p.length - (extOf p).length)

/-- Decimal digits of a natural number. -/
def natChars (n : Nat) : List Char := Nat.toDigits 10 n

/-- A Python dict value occurring in chunk metadata: a string, an
integer, or `None`. -/
inductive Val where
  | s (v : List Char)
  | i (v : Int)
  | none
deriving DecidableEq

/-- One `(content, metadata)` chunk.  The metadata dict is modelled as
the association list of its entries in insertion order. -/
structure Chunk where
  content : List Char
  meta : List (String × Val)
deriving DecidableEq

def pageVal : Option Int → Val
  | Option.some k => Val.i k
  | Option.none => Val.none

/-- Python `a or b` on strings (empty string is falsy). -/
def pyOrElse (a b : List Char) : List Char := if a = [] then b else a

/-- `_text_meta_chunk(text, orig_filename, page)`. -/
def text_meta_chunk (text orig : List Char) (page : Option Int) : Chunk :=
  ⟨text,
   [("type", Val.s "text".toList), ("orig_filename", Val.s orig),
    ("page", pageVal page)]⟩

/-- `_image_meta_chunk(caption_short, rel_image_path, orig_filename,
page, figure_no, caption_full)`. -/
def image_meta_chunk (captionShort relPath orig : List Char) (page : Option Int)
    (figNo : Nat) (captionFull : Option (List Char)) : Chunk :=
  ⟨"[Figure ".toList ++ natChars figNo ++ "] ".toList
      ++ pyOrElse captionShort "Image from document".toList,
   [("type", Val.s "image".toList), ("image_path", Val.s relPath),
    ("orig_filename", Val.s orig), ("page", pageVal page),
    ("figure_no", Val.i (Int.ofNat figNo)),
    ("caption", Val.s (pyOrElse (captionFull.getD []) (pyOrElse captionShort [])))]⟩

/-- Observable effects of a loader run: successful byte writes to
asset files, and chunks appended to the result list, in program
order. -/
inductive Event where
  | write (path : List Char)
  | emit (c : Chunk)
deriving DecidableEq

/-- The chunk list a loader returns is the emitted chunks of its
trace, in order. -/
def chunksOf (tr : List Event) : List Chunk :=
  tr.filterMap (fun e => match e with
    | Event.emit c => some c
    | Event.write _ => Option.none)

/-- `_assets_dir` places assets in `<slug(base)>_assets` under the
uploads root; saved images are referenced by the path relative to the
uploads root, so the relative directory is `<slug(base)>_assets`. -/
def assetsRel (slugRoot : List Char) : List Char := slugRoot ++ "_assets".toList

/-- One embedded PDF image; `ok` records whether the decode /
CMYK-conversion / `pix.save` sequence succeeds (any exception in the
`try` block makes it `false`). -/
structure PdfImage where
  ok : Bool
deriving DecidableEq

structure PdfPage where
  text : List Char
  images : List PdfImage
deriving DecidableEq

structure PdfDoc where
  pages : List PdfPage
deriving DecidableEq

/-- `f"{_slug(...)}_p{pidx+1}_{idx}.png"`. -/
def pdfImgName (slugRoot : List Char) (pno idx : Nat) : List Char :=
  slugRoot ++ "_p".toList ++ natChars pno ++ "_".toList ++ natChars idx
    ++ ".png".toList

/-- Relative path of a saved PDF image. -/
def pdfImgRel (slugRoot : List Char) (pno idx : Nat) : List Char :=
  assetsRel slugRoot ++ "/".toList ++ pdfImgName slugRoot pno idx

/-- `simple_caption`: first four non-blank stripped lines of the page
text, joined, whitespace-normalized, truncated to 300 characters. -/
def pdfCaption (pageText : List Char) : List Char :=
  (normWs (joinSp ((((splitLines pageText).map strip).filter
    (fun l => !l.isEmpty)).take 4))).take 300

/-- The `for idx, img in enumerate(image_list, start=1)` loop of the
PDF loader: produces the event trace and the final figure counter.
`idx` advances on every image, `fig` only on success. -/
def pdfImagesLoop (slugRoot filename : List Char) (pno : Nat) (caption : List Char) :
    List PdfImage → Nat → Nat → List Event × Nat
  | [], _, fig => ([], fig)
  | img :: rest, idx, fig =>
    if img.ok then
      let r := pdfImagesLoop slugRoot filename pno caption rest (idx + 1) (fig + 1)
      (Event.write (pdfImgRel slugRoot pno idx)
        :: Event.emit (image_meta_chunk caption (pdfImgRel slugRoot pno idx)
            filename (some (Int.ofNat pno)) fig (some caption))
        :: r.1, r.2)
    else pdfImagesLoop slugRoot filename pno caption rest (idx + 1) fig

/-- The per-page loop of `_load_pdf_with_images`: page text chunks
(tagged `page = pidx + 1`), then the page's images, threading the
figure counter. -/
def pdfPagesLoop (slugRoot filename : List Char) : List PdfPage → Nat → Nat → List Event
  | [], _, _ => []
  | p :: ps, pidx, fig =>
    ((chunkText p.text CHUNK_SIZE CHUNK_OVERLAP).map
        (fun ch => Event.emit (text_meta_chunk ch filename (some (Int.ofNat (pidx + 1))))))
      ++ (pdfImagesLoop slugRoot filename (pidx + 1) (pdfCaption p.text) p.images 1 fig).1
      ++ pdfPagesLoop slugRoot filename ps (pidx + 1)
          (pdfImagesLoop slugRoot filename (pidx + 1) (pdfCaption p.text) p.images 1 fig).2

/-- `_load_pdf_with_images(filepath, uploads_root)` as an event
trace, over the abstract parsed document. -/
def load_pdf_with_images (filepath : List Char) (doc : PdfDoc) : List Event :=
  pdfPagesLoop (slug (rootOf (basename filepath))) (basename filepath) doc.pages 0 1

/-- One discovered DOCX image part: its declared content type and
whether reading its blob and writing the bytes succeeds. -/
structure DocxPart where
  contentType : List Char
  ok : Bool
deriving DecidableEq

structure DocxDoc where
  paragraphs : List (List Char)
  parts : List DocxPart
deriving DecidableEq

/-- Python `pat in s` on strings. -/
def containsSeq (s pat : List Char) : Bool :=
  match s with
  | [] => pat.isEmpty
  | c :: rest => pat.isPrefixOf (c :: rest) || containsSeq rest pat

/-- Extension inference from a DOCX part's content type
(jpeg/jpg→.jpg, png→.png, gif→.gif, default .png). -/
def docxExt (ct : List Char) : List Char :=
  if containsSeq ct "jpeg".toList || containsSeq ct "jpg".toList then ".jpg".toList
  else if containsSeq ct "png".toList then ".png".toList
  else if containsSeq ct "gif".toList then ".gif".toList
  else ".png".toList

/-- `f"{_slug(...)}_fig_{i}{ext}"`. -/
def docxImgName (slugRoot : List Char) (i : Nat) (ext : List Char) : List Char :=
  slugRoot ++ "_fig_".toList ++ natChars i ++ ext

def docxImgRel (slugRoot : List Char) (i : Nat) (ext : List Char) : List Char :=
  assetsRel slugRoot ++ "/".toList ++ docxImgName slugRoot i ext

/-- The `for i, part in enumerate(image_parts, start=1)` loop of the
DOCX loader; `i` advances on every part, `fig` only on success. -/
def docxImagesLoop (slugRoot filename caption : List Char) :
    List DocxPart → Nat → Nat → List Event
  | [], _, _ => []
  | part :: rest, i, fig =>
    if part.ok then
      Event.write (docxImgRel slugRoot i (docxExt part.contentType))
        :: Event.emit (image_meta_chunk caption
            (docxImgRel slugRoot i (docxExt part.contentType)) filename
            Option.none fig (some caption))
        :: docxImagesLoop slugRoot filename caption rest (i + 1) (fig + 1)
    else docxImagesLoop slugRoot filename caption rest (i + 1) fig

/-- `_load_docx_with_images(filepath, uploads_root)` as an event
trace: all non-blank paragraphs joined by newlines, chunked with no
page attribution, then the image parts. -/
def load_docx_with_images (filepath : List Char) (doc : DocxDoc) : List Event :=
  ((chunkText (joinNl ((doc.paragraphs.map strip).filter (fun p => !p.isEmpty)))
      CHUNK_SIZE CHUNK_OVERLAP).map
    (fun ch => Event.emit (text_meta_chunk ch (basename filepath) Option.none)))
    ++ docxImagesLoop (slug (rootOf (basename filepath))) (basename filepath)
        ((normWs (joinSp (((doc.paragraphs.map strip).filter
          (fun p => !p.isEmpty)).take 6))).take 300)
        doc.parts 1 1

/-- One PPTX picture shape: the extension from the image's own
filename (possibly empty), the raw alt-text (empty when unavailable),
and whether image access and the byte write succeed. -/
structure PptxPic where
  ext : List Char
  alt : List Char
  ok : Bool
deriving DecidableEq

/-- A PPTX shape: a text-bearing shape, a picture shape, or anything
else. -/
inductive PptxShape where
  | text (t : List Char)
  | pic (p : PptxPic)
  | other
deriving DecidableEq

structure PptxSlide where
  shapes : List PptxShape
deriving DecidableEq

structure PptxDoc where
  slides : List PptxSlide
deriving DecidableEq

def shapeText : PptxShape → Option (List Char)
  | PptxShape.text t => some t
  | _ => Option.none

/-- The slide's collected non-blank stripped shape texts. -/
def slideTexts (s : PptxSlide) : List (List Char) :=
  ((s.shapes.filterMap shapeText).map strip).filter (fun t => !t.isEmpty)

def slideText (s : PptxSlide) : List Char := joinNl (slideTexts s)

/-- `os.path.splitext(image.filename)[1] or ".png"`. -/
def pptxEffExt (p : PptxPic) : List Char :=
  if p.ext = [] then ".png".toList else p.ext

/-- `f"{_slug(...)}_s{sidx}_{figure_no}{ext}"`. -/
def pptxImgName (slugRoot : List Char) (sno fig : Nat) (ext : List Char) : List Char :=
  slugRoot ++ "_s".toList ++ natChars sno ++ "_".toList ++ natChars fig ++ ext

def pptxImgRel (slugRoot : List Char) (sno fig : Nat) (ext : List Char) : List Char :=
  assetsRel slugRoot ++ "/".toList ++ pptxImgName slugRoot sno fig ext

/-- Caption choice for a PPTX picture: the whitespace-normalized
stripped alt-text if non-empty, else the slide-text context. -/
def pptxCaption (ctx : List Char) (p : PptxPic) : List Char :=
  pyOrElse (normWs (strip p.alt)) ctx

/-- The picture pass over one slide's shapes: trace plus final figure
counter (`fig` is also used in the generated filename). -/
def pptxShapesLoop (slugRoot filename : List Char) (sno : Nat) (ctx : List Char) :
    List PptxShape → Nat → List Event × Nat
  | [], fig => ([], fig)
  | PptxShape.pic p :: rest, fig =>
    if p.ok then
      let r := pptxShapesLoop slugRoot filename sno ctx rest (fig + 1)
      (Event.write (pptxImgRel slugRoot sno fig (pptxEffExt p))
        :: Event.emit (image_meta_chunk (pptxCaption ctx p)
            (pptxImgRel slugRoot sno fig (pptxEffExt p)) filename
            (some (Int.ofNat sno)) fig (some (pptxCaption ctx p)))
        :: r.1, r.2)
    else pptxShapesLoop slugRoot filename sno ctx rest fig
  | _ :: rest, fig => pptxShapesLoop slugRoot filename sno ctx rest fig

/-- The per-slide loop of `_load_pptx_with_images`: slide text chunks
(tagged `page = sidx`), then the slide's pictures, threading the
figure counter across slides. -/
def pptxSlidesLoop (slugRoot filename : List Char) : List PptxSlide → Nat → Nat → List Event
  | [], _, _ => []
  | s :: ss, sidx, fig =>
    ((chunkText (slideText s) CHUNK_SIZE CHUNK_OVERLAP).map
        (fun ch => Event.emit (text_meta_chunk ch filename (some (Int.ofNat sidx)))))
      ++ (pptxShapesLoop slugRoot filename sidx ((normWs (slideText s)).take 300)
            s.shapes fig).1
      ++ pptxSlidesLoop slugRoot filename ss (sidx + 1)
          (pptxShapesLoop slugRoot filename sidx ((normWs (slideText s)).take 300)
            s.shapes fig).2

/-- `_load_pptx_with_images(filepath, uploads_root)` as an event
trace. -/
def load_pptx_with_images (filepath : List Char) (doc : PptxDoc) : List Event :=
  pptxSlidesLoop (slug (rootOf (basename filepath))) (basename filepath) doc.slides 1 1

/-- `_load_plain(filepath, uploads_root)`: the file is read in text
mode with undecodable bytes ignored (`readResult` is the decoded text,
`none` when `open`/`read` raised, in which case `text = ""`). -/
def load_plain (filepath : List Char) (readResult : Option (List Char)) : List Event :=
  (chunkText (readResult.getD []) CHUNK_SIZE CHUNK_OVERLAP).map
    (fun ch => Event.emit (text_meta_chunk ch (basename filepath) Option.none))

/-- The parse results the four loaders would obtain for the file the
dispatcher is called on. -/
structure World where
  pdf : PdfDoc
  docx : DocxDoc
  pptx : PptxDoc
  plainRead : Option (List Char)

/-- `load_and_split_with_images(filepath, uploads_root)`: extension
dispatch (case-insensitive), falling back to the plain loader. -/
def load_and_split_with_images (filepath : List Char) (w : World) : List Chunk :=
  if (extOf filepath).map Char.toLower = ".pdf".toList then
    chunksOf (load_pdf_with_images filepath w.pdf)
  else if (extOf filepath).map Char.toLower = ".docx".toList then
    chunksOf (load_docx_with_images filepath w.docx)
  else if (extOf filepath).map Char.toLower = ".pptx".toList then
    chunksOf (load_pptx_with_images filepath w.pptx)
  else if (extOf filepath).map Char.toLower = ".txt".toList
      ∨ (extOf filepath).map Char.toLower = ".csv".toList
      ∨ (extOf filepath).map Char.toLower = ".md".toList then
    chunksOf (load_plain filepath w.plainRead)
  else chunksOf (load_plain filepath w.plainRead)

/-- The `figure_no` metadata values of a chunk list, in order. -/
def figNos (cs : List Chunk) : List Int :=
  cs.filterMap (fun c => match c.meta.lookup "figure_no" with
    | some (Val.i k) => some k
    | _ => Option.none)

/-- The `image_path` metadata values of a chunk list, in order. -/
def imagePaths (cs : List Chunk) : List (List Char) :=
  cs.filterMap (fun c => match c.meta.lookup "image_path" with
    | some (Val.s p) => some p
    | _ => Option.none)

/-- The `caption` metadata values of a chunk list, in order. -/
def captionsOf (cs : List Chunk) : List (List Char) :=
  cs.filterMap (fun c => match c.meta.lookup "caption" with
    | some (Val.s p) => some p
    | _ => Option.none)

def isImageChunk (c : Chunk) : Bool :=
  decide (c.meta.lookup "type" = some (Val.s "image".toList))

def isTextChunk (c : Chunk) : Bool :=
  decide (c.meta.lookup "type" = some (Val.s "text".toList))

def imageChunks (cs : List Chunk) : List Chunk := cs.filter isImageChunk

def textChunks (cs : List Chunk) : List Chunk := cs.filter isTextChunk

def pdfOkCount (imgs : List PdfImage) : Nat := (imgs.filter (fun i => i.ok)).length

def pdfDocOkCount (d : PdfDoc) : Nat := (d.pages.map (fun p => pdfOkCount p.images)).sum

def docxOkCount (parts : List DocxPart) : Nat := (parts.filter (fun p => p.ok)).length

def picOf : PptxShape → Option PptxPic
  | PptxShape.pic p => some p
  | _ => Option.none

/-- The slide's successfully extracted pictures, in shape order. -/
def okPics (s : PptxSlide) : List PptxPic :=
  (s.shapes.filterMap picOf).filter (fun p => p.ok)

def pptxSlideOkCount (s : PptxSlide) : Nat := (okPics s).length

def pptxDocOkCount (d : PptxDoc) : Nat := (d.slides.map pptxSlideOkCount).sum

/-- `labelFrom n [a, b, …] = [(n, a), (n+1, b), …]` (1-based
enumeration when `n = 1`). -/
def labelFrom {α : Type} (n : Nat) : List α → List (Nat × α)
  | [] => []
  | a :: rest => (n, a) :: labelFrom (n + 1) rest

/-- The successfully extracted pictures of a deck paired with their
slide numbers, in traversal order (`sidx` is the number of the first
slide). -/
def okPicsWithSlide : List PptxSlide → Nat → List (Nat × PptxPic)
  | [], _ => []
  | s :: ss, sidx => ((okPics s).map (fun p => (sidx, p))) ++ okPicsWithSlide ss (sidx + 1)

/-- Traces in which every emitted image chunk is immediately preceded
by the successful write of its referenced asset file. -/
inductive SafeTrace : List Event → Prop where
  | nil : SafeTrace []
  | text (c : Chunk) (tl : List Event) :
      c.meta.lookup "image_path" = Option.none → SafeTrace tl →
      SafeTrace (Event.emit c :: tl)
  | img (p : List Char) (c : Chunk) (tl : List Event) :
      c.meta.lookup "image_path" = some (Val.s p) → SafeTrace tl →
      SafeTrace (Event.write p :: Event.emit c :: tl)

end Rag

namespace Rag

theorem cdiv_zero_left (b : Nat) (hb : 0 < b) : cdiv 0 b = 0 := by
  unfold cdiv
  exact Nat.div_eq_of_lt (by omega)

theorem cdiv_step (r b : Nat) (hr : 0 < r) (hb : 0 < b) :
    cdiv r b = cdiv (r - b) b + 1 := by
  unfold cdiv
  rcases le_or_lt r b with h | h
  · have h1 : r - b = 0 := by omega
    rw [h1]
    have h2 : (0 + b - 1) / b = 0 := Nat.div_eq_of_lt (by omega)
    rw [h2]
    refine Nat.div_eq_of_lt_le (by omega) ?_
    have : (1 + 1) * b = b + b := by ring
    omega
  · have h1 : r + b - 1 = (r - b + b - 1) + b := by omega
    rw [h1, Nat.add_div_right _ hb]

theorem lt_cdiv_iff (L k b : Nat) (hb : 0 < b) : k < cdiv L b ↔ k * b < L := by
  unfold cdiv
  constructor
  · intro h
    have h2 : (k + 1) * b ≤ L + b - 1 := (Nat.le_div_iff_mul_le hb).mp h
    have h3 : k * b + b ≤ L + b - 1 := by
      have : (k + 1) * b = k * b + b := by ring
      omega
    generalize k * b = m at h3 ⊢
    omega
  · intro h
    have h3 : (k + 1) * b ≤ L + b - 1 := by
      have : (k + 1) * b = k * b + b := by ring
      generalize hkb : k * b = m at h this
      omega
    exact (Nat.le_div_iff_mul_le hb).mpr h3

theorem cdiv_mul_ge (L b : Nat) (hb : 0 < b) : L ≤ cdiv L b * b := by
  by_contra h
  push_neg at h
  have h2 : cdiv L b < cdiv L b := (lt_cdiv_iff L (cdiv L b) b hb).mpr h
  omega

theorem cdiv_le_self (L b : Nat) (hb : 0 < b) : cdiv L b ≤ L := by
  rcases Nat.eq_zero_or_pos L with h | h
  · rw [h, cdiv_zero_left b hb]
  · unfold cdiv
    have h1 : L + b - 1 = (L - 1) + b := by omega
    rw [h1, Nat.add_div_right _ hb]
    have h2 : (L - 1) / b ≤ L - 1 := Nat.div_le_self _ _
    omega

theorem cdiv_pos (L b : Nat) (hb : 0 < b) (hL : 0 < L) : 0 < cdiv L b := by
  rw [lt_cdiv_iff L 0 b hb]
  omega

theorem chunkLoopAux_closed (size : Int) (step : Nat) (hstep : 0 < step) :
    ∀ (fuel : Nat) (s : List Char) (i : Nat), s.length ≤ i + fuel →
      chunkLoopAux fuel s size step i =
        (List.range (cdiv (s.length - i) step)).map
          (fun k => pySlice s (i + k * step) (((i + k * step : Nat) : Int) + size)) := by
  intro fuel
  induction fuel with
  | zero =>
    intro s i hf
    have h0 : s.length - i = 0 := by omega
    rw [h0, cdiv_zero_left _ hstep]
    rfl
  | succ fuel ih =>
    intro s i hf
    by_cases h : i < s.length
    · have hrec := ih s (i + step) (by omega)
      show (if i < s.length then
          pySlice s i ((i : Int) + size) :: chunkLoopAux fuel s size step (i + step)
        else []) = _
      rw [if_pos h, hrec]
      have hstep' : cdiv (s.length - i) step = cdiv (s.length - (i + step)) step + 1 := by
        have : s.length - (i + step) = s.length - i - step := by omega
        rw [this]
        exact cdiv_step _ _ (by omega) hstep
      rw [hstep', List.range_succ_eq_map, List.map_cons, List.map_map]
      congr 1
      · congr 2 <;> omega
      · apply List.map_congr_left
        intro k _
        simp only [Function.comp_apply, Nat.succ_eq_add_one]
        have hidx : i + (k + 1) * step = i + step + k * step := by ring
        rw [hidx]
    · show (if i < s.length then _ else ([] : List (List Char))) = _
      rw [if_neg h]
      have h0 : s.length - i = 0 := by omega
      rw [h0, cdiv_zero_left _ hstep]
      rfl

theorem chunkText_closed (t : List Char) (size overlap : Int) :
    chunkText t size overlap =
      (List.range (cdiv (normWs t).length (max (size - overlap) 1).toNat)).map
        (fun k => pySlice (normWs t) (k * (max (size - overlap) 1).toNat)
          (((k * (max (size - overlap) 1).toNat : Nat) : Int) + size)) := by
  have hstep : 0 < (max (size - overlap) 1).toNat := by
    have h1 : (1 : Int) ≤ max (size - overlap) 1 := le_max_right _ _
    generalize max (size - overlap) 1 = m at h1 ⊢
    omega
  unfold chunkText
  by_cases h : normWs t = []
  · rw [if_pos h, h]
    simp only [List.length_nil]
    rw [cdiv_zero_left _ hstep]
    rfl
  · rw [if_neg h]
    rw [chunkLoopAux_closed size _ hstep (normWs t).length (normWs t) 0 (by omega)]
    apply List.map_congr_left
    intro k _
    congr 2 <;> omega

theorem pySlice_nonneg (s : List Char) (i : Nat) (size : Int) (hsz : 0 ≤ size) :
    pySlice s i ((i : Int) + size) = (s.drop i).take size.toNat := by
  unfold pySlice
  have hj : ¬ ((i : Int) + size < 0) := by omega
  rw [if_neg hj]
  by_cases hin : i ≤ s.length
  · have hmini : min (i : Int) (s.length : Int) = (i : Int) := by
      rw [min_eq_left]
      omega
    rw [hmini]
    by_cases hend : (i : Int) + size ≤ (s.length : Int)
    · have hminj : min ((i : Int) + size) (s.length : Int) = (i : Int) + size := by
        rw [min_eq_left hend]
      rw [hminj]
      congr 1
      omega
    · have hminj : min ((i : Int) + size) (s.length : Int) = (s.length : Int) := by
        rw [min_eq_right]
        omega
      rw [hminj]
      have hlen : (s.drop i).length = s.length - i := List.length_drop i s
      rw [List.take_of_length_le (by omega), List.take_of_length_le (by omega)]
  · have hdrop : s.drop i = [] := List.drop_eq_nil_of_le (by omega)
    rw [hdrop, List.take_nil, List.take_nil]

theorem chunkText_closed_pos (t : List Char) (S O : Int)
    (hS : 0 < S) (hO : 0 < O) (hSO : O < S) :
    chunkText t S O =
      (List.range (cdiv (normWs t).length (S - O).toNat)).map
        (fun k => ((normWs t).drop (k * (S - O).toNat)).take S.toNat) := by
  have hmax : max (S - O) 1 = S - O := max_eq_left (by omega)
  rw [chunkText_closed, hmax]
  apply List.map_congr_left
  intro k _
  exact pySlice_nonneg _ _ _ (by omega)

theorem getD_map_range {α : Type} (f : Nat → α) (m k : Nat) (hk : k < m) (d : α) :
    ((List.range m).map f).getD k d = f k := by
  rw [List.getD_eq_getElem?_getD, List.getElem?_map, List.getElem?_range hk]
  rfl

theorem flatten_take_blocks (n : List Char) (st : Nat) :
    ∀ (m s0 : Nat),
      ((List.range m).map (fun k => (n.drop (s0 + k * st)).take st)).flatten
        = (n.drop s0).take (m * st) := by
  intro m
  induction m with
  | zero => intro s0; simp
  | succ m ih =>
    intro s0
    rw [List.range_succ_eq_map, List.map_cons, List.map_map]
    have hmap :
        List.map ((fun k => (n.drop (s0 + k * st)).take st) ∘ Nat.succ) (List.range m)
          = List.map (fun k => (n.drop ((s0 + st) + k * st)).take st) (List.range m) := by
      apply List.map_congr_left
      intro k _
      simp only [Function.comp_apply, Nat.succ_eq_add_one]
      have hidx : s0 + (k + 1) * st = s0 + st + k * st := by ring
      rw [hidx]
    rw [List.flatten_cons, hmap, ih (s0 + st)]
    simp only [Nat.zero_mul, Nat.add_zero]
    have hdd : n.drop (s0 + st) = (n.drop s0).drop st := by
      rw [List.drop_drop]
    rw [hdd, ← List.take_add]
    congr 1
    ring

/-- Claim C1 (amended): for positive `S`, `O` with `O < S`, the chunker
normalizes whitespace; empty normalized input gives `[]`; otherwise the
result has one chunk per offset `0, S-O, 2(S-O), …` below the
normalized length, the chunk at offset `k(S-O)` being the slice of at
most `S` characters starting there (truncated at the string's end, so
trailing chunks other than the final one may also be shorter than `S`),
and the final chunk reaches exactly the end of the normalized string. -/
theorem chunk_text_characterization (t : List Char) (S O : Int)
    (hS : 0 < S) (hO : 0 < O) (hSO : O < S) :
    (normWs t = [] → chunkText t S O = []) ∧
    (chunkText t S O).length
      = ((normWs t).length + (S - O).toNat - 1) / (S - O).toNat ∧
    (∀ k, k < (chunkText t S O).length →
      (chunkText t S O).getD k []
        = ((normWs t).drop (k * (S - O).toNat)).take S.toNat) ∧
    (chunkText t S O ≠ [] →
      ((chunkText t S O).length - 1) * (S - O).toNat
        + ((chunkText t S O).getD ((chunkText t S O).length - 1) []).length
        = (normWs t).length) := by
  have hst : 0 < (S - O).toNat := by omega
  have hstS : (S - O).toNat ≤ S.toNat := by omega
  have hcf := chunkText_closed_pos t S O hS hO hSO
  set n := normWs t with hn
  set st := (S - O).toNat with hstdef
  set m := cdiv n.length st with hm
  refine ⟨?_, ?_, ?_, ?_⟩
  · intro h
    have hlen : n.length = 0 := by rw [h]; rfl
    have hm0 : m = 0 := by rw [hm, hlen, cdiv_zero_left _ hst]
    rw [hcf, hm0]
    rfl
  · rw [hcf, List.length_map, List.length_range]
    rfl
  · intro k hk
    rw [hcf] at hk ⊢
    rw [List.length_map, List.length_range] at hk
    exact getD_map_range _ _ _ hk _
  · intro hne
    rw [hcf] at hne ⊢
    have hm1 : 0 < m := by
      by_contra h0
      push_neg at h0
      have h00 : m = 0 := by omega
      rw [h00] at hne
      exact hne rfl
    have hL : 0 < n.length := by
      by_contra h0
      push_neg at h0
      have h00 : n.length = 0 := by omega
      rw [hm, h00, cdiv_zero_left _ hst] at hm1
      omega
    rw [List.length_map, List.length_range]
    rw [getD_map_range _ _ _ (by omega : m - 1 < m)]
    rw [List.length_take, List.length_drop]
    have h1 : (m - 1) * st < n.length :=
      (lt_cdiv_iff n.length (m - 1) st hst).mp (by omega)
    have h2 : n.length ≤ m * st := by rw [hm]; exact cdiv_mul_ge n.length st hst
    have h3 : m * st = (m - 1) * st + st := by
      have hm' : m = (m - 1) + 1 := by omega
      calc m * st = ((m - 1) + 1) * st := by rw [← hm']
        _ = (m - 1) * st + st := by ring
    generalize (m - 1) * st = a at *
    generalize m * st = b at *
    omega

/-- Claim C1, counterexample to the claim as stated: on input "abcd",
`S = 3`, `O = 2` the chunker returns four chunks and the chunk at
index 2 ("cd") has length 2 ≠ S although it is not the final chunk, so
the slices are not "of length S with only the final slice shorter". -/
theorem chunk_text_claim_cex :
    (chunkText ['a', 'b', 'c', 'd'] 3 2).length = 4 ∧
    (chunkText ['a', 'b', 'c', 'd'] 3 2).getD 2 [] = ['c', 'd'] ∧
    ¬ (((chunkText ['a', 'b', 'c', 'd'] 3 2).getD 2 []).length = 3 ∨
        2 = (chunkText ['a', 'b', 'c', 'd'] 3 2).length - 1) := by
  decide

/-- Witness for `chunk_text_characterization` at input
"ab␣␣cd" (which normalizes to "ab cd"), `S = 4`, `O = 1`. -/
theorem chunk_text_characterization_witness :
    (chunkText ['a', 'b', ' ', ' ', 'c', 'd'] 4 1).length
      = ((normWs ['a', 'b', ' ', ' ', 'c', 'd']).length
          + ((4 : Int) - 1).toNat - 1) / ((4 : Int) - 1).toNat ∧
    (chunkText ['a', 'b', ' ', ' ', 'c', 'd'] 4 1).getD 1 []
      = ((normWs ['a', 'b', ' ', ' ', 'c', 'd']).drop
          (1 * ((4 : Int) - 1).toNat)).take (4 : Int).toNat := by
  have h := chunk_text_characterization ['a', 'b', ' ', ' ', 'c', 'd'] 4 1
    (by decide) (by decide) (by decide)
  exact ⟨h.2.1, h.2.2.1 1 (by decide)⟩

/-- Claim C2 (amended): concatenating the first chunk with each
subsequent chunk after dropping that chunk's first `O` characters
reconstructs the whitespace-normalized input exactly; and whenever a
chunk of full length `S` is followed by another chunk, the two share
exactly `O` characters at the boundary (the trailing chunks shorter
than `S` — not only the final one — may share fewer). -/
theorem chunk_text_reconstruction (t : List Char) (S O : Int)
    (hS : 0 < S) (hO : 0 < O) (hSO : O < S) :
    reassemble (chunkText t S O) O.toNat = normWs t ∧
    (∀ k, k + 1 < (chunkText t S O).length →
      ((chunkText t S O).getD k []).length = S.toNat →
      ((chunkText t S O).getD k []).drop (S.toNat - O.toNat)
          = ((chunkText t S O).getD (k + 1) []).take O.toNat ∧
        (((chunkText t S O).getD (k + 1) []).take O.toNat).length = O.toNat) := by
  have hst : 0 < (S - O).toNat := by omega
  have hstS : (S - O).toNat ≤ S.toNat := by omega
  have hOst : O.toNat + (S - O).toNat = S.toNat := by omega
  have hcf := chunkText_closed_pos t S O hS hO hSO
  set n := normWs t with hn
  set st := (S - O).toNat with hstdef
  set m := cdiv n.length st with hm
  constructor
  · rw [hcf]
    by_cases hz : m = 0
    · have hL : n.length = 0 := by
        by_contra h0
        have := cdiv_pos n.length st hst (by omega)
        rw [← hm] at this
        omega
      have hnil : n = [] := List.length_eq_zero.mp hL
      rw [hz, hnil]
      rfl
    · obtain ⟨mm, hmm⟩ : ∃ mm, m = mm + 1 := ⟨m - 1, by omega⟩
      rw [hmm, List.range_succ_eq_map, List.map_cons, List.map_map]
      simp only [reassemble, Nat.zero_mul, List.drop_zero, List.map_map]
      have hmap :
          List.map ((fun d => List.drop O.toNat d)
              ∘ ((fun k => (n.drop (k * st)).take S.toNat) ∘ Nat.succ)) (List.range mm)
            = List.map (fun k => (n.drop (S.toNat + k * st)).take st) (List.range mm) := by
        apply List.map_congr_left
        intro k _
        simp only [Function.comp_apply, Nat.succ_eq_add_one]
        rw [List.drop_take, List.drop_drop]
        have hS_O : S.toNat - O.toNat = st := by omega
        have hidx : (k + 1) * st + O.toNat = S.toNat + k * st := by
          calc (k + 1) * st + O.toNat = (O.toNat + st) + k * st := by ring
            _ = S.toNat + k * st := by rw [hOst]
        rw [hS_O, hidx]
      rw [hmap, flatten_take_blocks n st mm S.toNat, ← List.take_add]
      apply List.take_of_length_le
      have h2 : n.length ≤ m * st := by rw [hm]; exact cdiv_mul_ge n.length st hst
      have h3 : m * st = mm * st + st := by
        calc m * st = (mm + 1) * st := by rw [hmm]
          _ = mm * st + st := by ring
      generalize mm * st = a at *
      generalize m * st = b at *
      omega
  · intro k hk hlen
    rw [hcf] at hk hlen ⊢
    rw [List.length_map, List.length_range] at hk
    rw [getD_map_range _ _ _ (by omega : k < m)] at hlen ⊢
    rw [getD_map_range _ _ _ (by omega : k + 1 < m)]
    rw [List.length_take, List.length_drop] at hlen
    have hkS : k * st + S.toNat ≤ n.length := by
      have h1 : (k + 1) * st < n.length :=
        (lt_cdiv_iff n.length (k + 1) st hst).mp (by omega)
      have h4 : (k + 1) * st = k * st + st := by ring
      generalize k * st = a at *
      generalize (k + 1) * st = b at *
      omega
    constructor
    · rw [List.drop_take, List.drop_drop, List.take_take]
      have hS_O : S.toNat - (S.toNat - O.toNat) = O.toNat := by omega
      have hmin : O.toNat ⊓ S.toNat = O.toNat := by
        rw [min_eq_left]
        omega
      have hidx : k * st + (S.toNat - O.toNat) = (k + 1) * st := by
        have h4 : (k + 1) * st = k * st + st := by ring
        generalize k * st = a at *
        generalize (k + 1) * st = b at *
        omega
      rw [hS_O, hmin, hidx]
    · rw [List.take_take, List.length_take, List.length_drop]
      have h4 : (k + 1) * st = k * st + st := by ring
      generalize k * st = a at *
      generalize (k + 1) * st = b at *
      omega

/-- Claim C2, counterexample to the overlap law as stated: on
normalized input "abcdef" with `S = 4`, `O = 3` the chunks are
["abcd","bcde","cdef","def","ef","f"]; chunks 3 ("def") and 4 ("ef")
share only 2 characters at their boundary although chunk 4 is not the
final chunk. -/
theorem chunk_text_overlap_cex :
    (chunkText "abcdef".toList 4 3).length = 6 ∧
    (chunkText "abcdef".toList 4 3).getD 3 [] = "def".toList ∧
    (chunkText "abcdef".toList 4 3).getD 4 [] = "ef".toList ∧
    ¬ (4 = (chunkText "abcdef".toList 4 3).length - 1) ∧
    ¬ (((chunkText "abcdef".toList 4 3).getD 3 []).drop
          (((chunkText "abcdef".toList 4 3).getD 3 []).length - 3)
        = ((chunkText "abcdef".toList 4 3).getD 4 []).take 3 ∧
        (((chunkText "abcdef".toList 4 3).getD 4 []).take 3).length = 3) := by
  decide

/-- Witness for `chunk_text_reconstruction` at input "abcdef",
`S = 3`, `O = 1` (chunks "abc", "cde", "ef"). -/
theorem chunk_text_reconstruction_witness :
    reassemble (chunkText "abcdef".toList 3 1) (1 : Int).toNat
      = normWs "abcdef".toList ∧
    ((chunkText "abcdef".toList 3 1).getD 0 []).drop
        ((3 : Int).toNat - (1 : Int).toNat)
      = ((chunkText "abcdef".toList 3 1).getD 1 []).take (1 : Int).toNat := by
  have h := chunk_text_reconstruction "abcdef".toList 3 1
    (by decide) (by decide) (by decide)
  exact ⟨h.1, (h.2 0 (by decide) (by decide)).1⟩

/-- Claim C10: for every input string and all integer size/overlap
parameters (including `overlap ≥ size`), `_chunk_text` is total and
returns a finite list whose length is the iteration count
`⌈L / max(size - overlap, 1)⌉`, which is at most the normalized
length `L` because the step is clamped to be at least 1. -/
theorem chunk_text_total (t : List Char) (size overlap : Int) :
    (chunkText t size overlap).length
      = ((normWs t).length + (max (size - overlap) 1).toNat - 1)
          / (max (size - overlap) 1).toNat ∧
    (chunkText t size overlap).length ≤ (normWs t).length := by
  have hstep : 0 < (max (size - overlap) 1).toNat := by
    have h1 : (1 : Int) ≤ max (size - overlap) 1 := le_max_right _ _
    generalize max (size - overlap) 1 = mx at h1 ⊢
    omega
  rw [chunkText_closed, List.length_map, List.length_range]
  exact ⟨rfl, cdiv_le_self _ _ hstep⟩

end Rag


namespace Rag

theorem lookup_type_text (t o : List Char) (p : Option Int) :
    (text_meta_chunk t o p).meta.lookup "type" = some (Val.s "text".toList) := rfl

theorem lookup_page_text (t o : List Char) (p : Option Int) :
    (text_meta_chunk t o p).meta.lookup "page" = some (pageVal p) := rfl

theorem lookup_ip_text (t o : List Char) (p : Option Int) :
    (text_meta_chunk t o p).meta.lookup "image_path" = Option.none := rfl

theorem lookup_fig_text (t o : List Char) (p : Option Int) :
    (text_meta_chunk t o p).meta.lookup "figure_no" = Option.none := rfl

theorem lookup_cap_text (t o : List Char) (p : Option Int) :
    (text_meta_chunk t o p).meta.lookup "caption" = Option.none := rfl

theorem lookup_type_img (a b o : List Char) (p : Option Int) (f : Nat)
    (cf : Option (List Char)) :
    (image_meta_chunk a b o p f cf).meta.lookup "type"
      = some (Val.s "image".toList) := rfl

theorem lookup_ip_img (a b o : List Char) (p : Option Int) (f : Nat)
    (cf : Option (List Char)) :
    (image_meta_chunk a b o p f cf).meta.lookup "image_path" = some (Val.s b) := rfl

theorem lookup_page_img (a b o : List Char) (p : Option Int) (f : Nat)
    (cf : Option (List Char)) :
    (image_meta_chunk a b o p f cf).meta.lookup "page" = some (pageVal p) := rfl

theorem lookup_fig_img (a b o : List Char) (p : Option Int) (f : Nat)
    (cf : Option (List Char)) :
    (image_meta_chunk a b o p f cf).meta.lookup "figure_no"
      = some (Val.i (Int.ofNat f)) := rfl

theorem lookup_cap_img (a b o : List Char) (p : Option Int) (f : Nat)
    (cf : Option (List Char)) :
    (image_meta_chunk a b o p f cf).meta.lookup "caption"
      = some (Val.s (pyOrElse (cf.getD []) (pyOrElse a []))) := rfl

theorem isTextChunk_text (t o : List Char) (p : Option Int) :
    isTextChunk (text_meta_chunk t o p) = true := rfl

theorem isTextChunk_img (a b o : List Char) (p : Option Int) (f : Nat)
    (cf : Option (List Char)) :
    isTextChunk (image_meta_chunk a b o p f cf) = false := rfl

theorem isImageChunk_text (t o : List Char) (p : Option Int) :
    isImageChunk (text_meta_chunk t o p) = false := rfl

theorem isImageChunk_img (a b o : List Char) (p : Option Int) (f : Nat)
    (cf : Option (List Char)) :
    isImageChunk (image_meta_chunk a b o p f cf) = true := rfl

theorem chunksOf_append (t1 t2 : List Event) :
    chunksOf (t1 ++ t2) = chunksOf t1 ++ chunksOf t2 :=
  List.filterMap_append t1 t2 _

theorem figNos_append (c1 c2 : List Chunk) :
    figNos (c1 ++ c2) = figNos c1 ++ figNos c2 :=
  List.filterMap_append c1 c2 _

theorem imagePaths_append (c1 c2 : List Chunk) :
    imagePaths (c1 ++ c2) = imagePaths c1 ++ imagePaths c2 :=
  List.filterMap_append c1 c2 _

theorem captionsOf_append (c1 c2 : List Chunk) :
    captionsOf (c1 ++ c2) = captionsOf c1 ++ captionsOf c2 :=
  List.filterMap_append c1 c2 _

theorem imageChunks_append (c1 c2 : List Chunk) :
    imageChunks (c1 ++ c2) = imageChunks c1 ++ imageChunks c2 :=
  List.filter_append c1 c2

theorem textChunks_append (c1 c2 : List Chunk) :
    textChunks (c1 ++ c2) = textChunks c1 ++ textChunks c2 :=
  List.filter_append c1 c2

/-- A block of emitted text chunks contributes exactly those chunks. -/
theorem chunksOf_text_events (l : List (List Char)) (fn : List Char) (pg : Option Int) :
    chunksOf (l.map (fun ch => Event.emit (text_meta_chunk ch fn pg)))
      = l.map (fun ch => text_meta_chunk ch fn pg) := by
  induction l with
  | nil => rfl
  | cons a l ih =>
    simp only [List.map_cons]
    rw [show chunksOf (Event.emit (text_meta_chunk a fn pg)
        :: List.map (fun ch => Event.emit (text_meta_chunk ch fn pg)) l)
      = text_meta_chunk a fn pg
        :: chunksOf (List.map (fun ch => Event.emit (text_meta_chunk ch fn pg)) l) from rfl]
    rw [ih]

theorem figNos_text_block (l : List (List Char)) (fn : List Char) (pg : Option Int) :
    figNos (l.map (fun ch => text_meta_chunk ch fn pg)) = [] := by
  induction l with
  | nil => rfl
  | cons a l ih =>
    simp only [List.map_cons]
    rw [show figNos (text_meta_chunk a fn pg
        :: List.map (fun ch => text_meta_chunk ch fn pg) l)
      = figNos (List.map (fun ch => text_meta_chunk ch fn pg) l) from rfl]
    exact ih

theorem imagePaths_text_block (l : List (List Char)) (fn : List Char) (pg : Option Int) :
    imagePaths (l.map (fun ch => text_meta_chunk ch fn pg)) = [] := by
  induction l with
  | nil => rfl
  | cons a l ih =>
    simp only [List.map_cons]
    rw [show imagePaths (text_meta_chunk a fn pg
        :: List.map (fun ch => text_meta_chunk ch fn pg) l)
      = imagePaths (List.map (fun ch => text_meta_chunk ch fn pg) l) from rfl]
    exact ih

theorem captionsOf_text_block (l : List (List Char)) (fn : List Char) (pg : Option Int) :
    captionsOf (l.map (fun ch => text_meta_chunk ch fn pg)) = [] := by
  induction l with
  | nil => rfl
  | cons a l ih =>
    simp only [List.map_cons]
    rw [show captionsOf (text_meta_chunk a fn pg
        :: List.map (fun ch => text_meta_chunk ch fn pg) l)
      = captionsOf (List.map (fun ch => text_meta_chunk ch fn pg) l) from rfl]
    exact ih

theorem imageChunks_text_block (l : List (List Char)) (fn : List Char) (pg : Option Int) :
    imageChunks (l.map (fun ch => text_meta_chunk ch fn pg)) = [] := by
  induction l with
  | nil => rfl
  | cons a l ih =>
    simp only [List.map_cons, imageChunks, List.filter_cons, isImageChunk_text]
    simp only [imageChunks] at ih
    rw [if_neg (by simp)]
    exact ih

theorem textChunks_text_block (l : List (List Char)) (fn : List Char) (pg : Option Int) :
    textChunks (l.map (fun ch => text_meta_chunk ch fn pg))
      = l.map (fun ch => text_meta_chunk ch fn pg) := by
  induction l with
  | nil => rfl
  | cons a l ih =>
    simp only [List.map_cons, textChunks, List.filter_cons, isTextChunk_text]
    simp only [textChunks] at ih
    simp only [if_true]
    rw [ih]

theorem safeTrace_append {t1 t2 : List Event} (h1 : SafeTrace t1) (h2 : SafeTrace t2) :
    SafeTrace (t1 ++ t2) := by
  induction h1 with
  | nil => exact h2
  | text c tl hc _ ih => exact SafeTrace.text c (tl ++ t2) hc ih
  | img p c tl hc _ ih => exact SafeTrace.img p c (tl ++ t2) hc ih

theorem safeTrace_text_events (l : List (List Char)) (fn : List Char) (pg : Option Int) :
    SafeTrace (l.map (fun ch => Event.emit (text_meta_chunk ch fn pg))) := by
  induction l with
  | nil => exact SafeTrace.nil
  | cons a l ih => exact SafeTrace.text _ _ (lookup_ip_text a fn pg) ih

/-- In a safe trace, every emitted image chunk's asset write occurs
strictly earlier in the trace. -/
theorem safeTrace_write_before {tr : List Event} (h : SafeTrace tr) :
    ∀ (i : Nat) (c : Chunk) (p : List Char),
      tr[i]? = some (Event.emit c) →
      c.meta.lookup "image_path" = some (Val.s p) →
      ∃ j, j < i ∧ tr[j]? = some (Event.write p) := by
  induction h with
  | nil =>
    intro i c p hi _
    rw [List.getElem?_nil] at hi
    exact absurd hi (by simp)
  | text c0 tl hc0 _ ih =>
    intro i c p hi hp
    match i with
    | 0 =>
      rw [List.getElem?_cons_zero] at hi
      have hcc : c0 = c := by
        have := Option.some.inj hi
        exact (Event.emit.inj this)
      rw [← hcc, hc0] at hp
      exact absurd hp (by simp)
    | i + 1 =>
      rw [List.getElem?_cons_succ] at hi
      obtain ⟨j, hj, hw⟩ := ih i c p hi hp
      exact ⟨j + 1, by omega, by rw [List.getElem?_cons_succ]; exact hw⟩
  | img p0 c0 tl hc0 _ ih =>
    intro i c p hi hp
    match i with
    | 0 =>
      rw [List.getElem?_cons_zero] at hi
      exact absurd (Option.some.inj hi) (by simp)
    | 1 =>
      rw [List.getElem?_cons_succ, List.getElem?_cons_zero] at hi
      have hcc : c0 = c := Event.emit.inj (Option.some.inj hi)
      rw [← hcc, hc0] at hp
      have hpp : p0 = p := by
        have := Option.some.inj hp
        exact (Val.s.inj this)
      exact ⟨0, by omega, by rw [List.getElem?_cons_zero, hpp]⟩
    | i + 2 =>
      rw [List.getElem?_cons_succ, List.getElem?_cons_succ] at hi
      obtain ⟨j, hj, hw⟩ := ih i c p hi hp
      exact ⟨j + 2, by omega,
        by rw [List.getElem?_cons_succ, List.getElem?_cons_succ]; exact hw⟩

end Rag

namespace Rag

theorem chunksOf_cons_write (p : List Char) (tr : List Event) :
    chunksOf (Event.write p :: tr) = chunksOf tr := rfl

theorem chunksOf_cons_emit (c : Chunk) (tr : List Event) :
    chunksOf (Event.emit c :: tr) = c :: chunksOf tr := rfl

theorem figNos_cons_img (a b o : List Char) (p : Option Int) (f : Nat)
    (cf : Option (List Char)) (cs : List Chunk) :
    figNos (image_meta_chunk a b o p f cf :: cs) = Int.ofNat f :: figNos cs := rfl

theorem figNos_cons_text (t o : List Char) (p : Option Int) (cs : List Chunk) :
    figNos (text_meta_chunk t o p :: cs) = figNos cs := rfl

theorem imagePaths_cons_img (a b o : List Char) (p : Option Int) (f : Nat)
    (cf : Option (List Char)) (cs : List Chunk) :
    imagePaths (image_meta_chunk a b o p f cf :: cs) = b :: imagePaths cs := rfl

theorem imagePaths_cons_text (t o : List Char) (p : Option Int) (cs : List Chunk) :
    imagePaths (text_meta_chunk t o p :: cs) = imagePaths cs := rfl

theorem captionsOf_cons_img (a b o : List Char) (p : Option Int) (f : Nat)
    (cf : Option (List Char)) (cs : List Chunk) :
    captionsOf (image_meta_chunk a b o p f cf :: cs)
      = pyOrElse (cf.getD []) (pyOrElse a []) :: captionsOf cs := rfl

theorem captionsOf_cons_text (t o : List Char) (p : Option Int) (cs : List Chunk) :
    captionsOf (text_meta_chunk t o p :: cs) = captionsOf cs := rfl

theorem imageChunks_cons_img (a b o : List Char) (p : Option Int) (f : Nat)
    (cf : Option (List Char)) (cs : List Chunk) :
    imageChunks (image_meta_chunk a b o p f cf :: cs)
      = image_meta_chunk a b o p f cf :: imageChunks cs := rfl

theorem imageChunks_cons_text (t o : List Char) (p : Option Int) (cs : List Chunk) :
    imageChunks (text_meta_chunk t o p :: cs) = imageChunks cs := rfl

theorem textChunks_cons_img (a b o : List Char) (p : Option Int) (f : Nat)
    (cf : Option (List Char)) (cs : List Chunk) :
    textChunks (image_meta_chunk a b o p f cf :: cs) = textChunks cs := rfl

theorem textChunks_cons_text (t o : List Char) (p : Option Int) (cs : List Chunk) :
    textChunks (text_meta_chunk t o p :: cs)
      = text_meta_chunk t o p :: textChunks cs := rfl

theorem pdfOkCount_cons_true (img : PdfImage) (rest : List PdfImage)
    (h : img.ok = true) : pdfOkCount (img :: rest) = pdfOkCount rest + 1 := by
  simp [pdfOkCount, List.filter_cons, h]

theorem pdfOkCount_cons_false (img : PdfImage) (rest : List PdfImage)
    (h : img.ok = false) : pdfOkCount (img :: rest) = pdfOkCount rest := by
  simp [pdfOkCount, List.filter_cons, h]

theorem pdfImagesLoop_snd (sr fn : List Char) (pno : Nat) (cap : List Char) :
    ∀ (imgs : List PdfImage) (idx fig : Nat),
      (pdfImagesLoop sr fn pno cap imgs idx fig).2 = fig + pdfOkCount imgs := by
  intro imgs
  induction imgs with
  | nil => intro idx fig; simp [pdfImagesLoop, pdfOkCount]
  | cons img rest ih =>
    intro idx fig
    cases h : img.ok with
    | false =>
      simp only [pdfImagesLoop, h, Bool.false_eq_true, if_false]
      rw [ih (idx + 1) fig, pdfOkCount_cons_false img rest h]
    | true =>
      simp only [pdfImagesLoop, h, if_true]
      rw [ih (idx + 1) (fig + 1), pdfOkCount_cons_true img rest h]
      omega

theorem pdfImagesLoop_figNos (sr fn : List Char) (pno : Nat) (cap : List Char) :
    ∀ (imgs : List PdfImage) (idx fig : Nat),
      figNos (chunksOf (pdfImagesLoop sr fn pno cap imgs idx fig).1)
        = (List.range' fig (pdfOkCount imgs)).map Int.ofNat := by
  intro imgs
  induction imgs with
  | nil => intro idx fig; rfl
  | cons img rest ih =>
    intro idx fig
    cases h : img.ok with
    | false =>
      simp only [pdfImagesLoop, h, Bool.false_eq_true, if_false]
      rw [ih (idx + 1) fig, pdfOkCount_cons_false img rest h]
    | true =>
      simp only [pdfImagesLoop, h, if_true]
      rw [chunksOf_cons_write, chunksOf_cons_emit, figNos_cons_img]
      rw [ih (idx + 1) (fig + 1), pdfOkCount_cons_true img rest h]
      rw [List.range'_succ]
      rfl

theorem pdfImagesLoop_paths (sr fn : List Char) (pno : Nat) (cap : List Char) :
    ∀ (imgs : List PdfImage) (idx fig : Nat),
      imagePaths (chunksOf (pdfImagesLoop sr fn pno cap imgs idx fig).1)
        = (labelFrom idx imgs).filterMap
            (fun x => if x.2.ok then some (pdfImgRel sr pno x.1) else Option.none) := by
  intro imgs
  induction imgs with
  | nil => intro idx fig; rfl
  | cons img rest ih =>
    intro idx fig
    rw [show labelFrom idx (img :: rest) = (idx, img) :: labelFrom (idx + 1) rest from rfl]
    rw [List.filterMap_cons]
    cases h : img.ok with
    | false =>
      simp only [pdfImagesLoop, h, Bool.false_eq_true, if_false]
      rw [ih (idx + 1) fig]
    | true =>
      simp only [pdfImagesLoop, h, if_true]
      rw [chunksOf_cons_write, chunksOf_cons_emit, imagePaths_cons_img]
      rw [ih (idx + 1) (fig + 1)]

theorem pdfImagesLoop_safe (sr fn : List Char) (pno : Nat) (cap : List Char) :
    ∀ (imgs : List PdfImage) (idx fig : Nat),
      SafeTrace (pdfImagesLoop sr fn pno cap imgs idx fig).1 := by
  intro imgs
  induction imgs with
  | nil => intro idx fig; exact SafeTrace.nil
  | cons img rest ih =>
    intro idx fig
    cases h : img.ok with
    | false =>
      simp only [pdfImagesLoop, h, Bool.false_eq_true, if_false]
      exact ih (idx + 1) fig
    | true =>
      simp only [pdfImagesLoop, h, if_true]
      exact SafeTrace.img _ _ _ (lookup_ip_img _ _ _ _ _ _) (ih (idx + 1) (fig + 1))

theorem pdfImagesLoop_textChunks (sr fn : List Char) (pno : Nat) (cap : List Char) :
    ∀ (imgs : List PdfImage) (idx fig : Nat),
      textChunks (chunksOf (pdfImagesLoop sr fn pno cap imgs idx fig).1) = [] := by
  intro imgs
  induction imgs with
  | nil => intro idx fig; rfl
  | cons img rest ih =>
    intro idx fig
    cases h : img.ok with
    | false =>
      simp only [pdfImagesLoop, h, Bool.false_eq_true, if_false]
      exact ih (idx + 1) fig
    | true =>
      simp only [pdfImagesLoop, h, if_true]
      rw [chunksOf_cons_write, chunksOf_cons_emit, textChunks_cons_img]
      exact ih (idx + 1) (fig + 1)

theorem pdfImagesLoop_imageCount (sr fn : List Char) (pno : Nat) (cap : List Char) :
    ∀ (imgs : List PdfImage) (idx fig : Nat),
      (imageChunks (chunksOf (pdfImagesLoop sr fn pno cap imgs idx fig).1)).length
        = pdfOkCount imgs := by
  intro imgs
  induction imgs with
  | nil => intro idx fig; rfl
  | cons img rest ih =>
    intro idx fig
    cases h : img.ok with
    | false =>
      simp only [pdfImagesLoop, h, Bool.false_eq_true, if_false]
      rw [ih (idx + 1) fig, pdfOkCount_cons_false img rest h]
    | true =>
      simp only [pdfImagesLoop, h, if_true]
      rw [chunksOf_cons_write, chunksOf_cons_emit, imageChunks_cons_img]
      rw [List.length_cons, ih (idx + 1) (fig + 1), pdfOkCount_cons_true img rest h]

theorem pdfImagesLoop_shape (sr fn : List Char) (pno : Nat) (cap : List Char) :
    ∀ (imgs : List PdfImage) (idx fig : Nat) (c : Chunk),
      c ∈ chunksOf (pdfImagesLoop sr fn pno cap imgs idx fig).1 →
      ∃ a b o p f cf, c = image_meta_chunk a b o p f cf := by
  intro imgs
  induction imgs with
  | nil =>
    intro idx fig c hc
    exact absurd hc (by simp [pdfImagesLoop, chunksOf])
  | cons img rest ih =>
    intro idx fig c hc
    cases h : img.ok with
    | false =>
      rw [show pdfImagesLoop sr fn pno cap (img :: rest) idx fig
          = pdfImagesLoop sr fn pno cap rest (idx + 1) fig by
        simp only [pdfImagesLoop, h, Bool.false_eq_true, if_false]] at hc
      exact ih (idx + 1) fig c hc
    | true =>
      simp only [pdfImagesLoop, h, if_true] at hc
      rw [chunksOf_cons_write, chunksOf_cons_emit] at hc
      rcases List.mem_cons.mp hc with h1 | h1
      · exact ⟨_, _, _, _, _, _, h1⟩
      · exact ih (idx + 1) (fig + 1) c h1

theorem pdfImagesLoop_page (sr fn : List Char) (pno : Nat) (cap : List Char) :
    ∀ (imgs : List PdfImage) (idx fig : Nat) (c : Chunk),
      c ∈ chunksOf (pdfImagesLoop sr fn pno cap imgs idx fig).1 →
      c.meta.lookup "page" = some (Val.i (Int.ofNat pno)) := by
  intro imgs
  induction imgs with
  | nil =>
    intro idx fig c hc
    exact absurd hc (by simp [pdfImagesLoop, chunksOf])
  | cons img rest ih =>
    intro idx fig c hc
    cases h : img.ok with
    | false =>
      rw [show pdfImagesLoop sr fn pno cap (img :: rest) idx fig
          = pdfImagesLoop sr fn pno cap rest (idx + 1) fig by
        simp only [pdfImagesLoop, h, Bool.false_eq_true, if_false]] at hc
      exact ih (idx + 1) fig c hc
    | true =>
      simp only [pdfImagesLoop, h, if_true] at hc
      rw [chunksOf_cons_write, chunksOf_cons_emit] at hc
      rcases List.mem_cons.mp hc with h1 | h1
      · rw [h1]
        exact lookup_page_img _ _ _ _ _ _
      · exact ih (idx + 1) (fig + 1) c h1

end Rag

namespace Rag

theorem pdfPagesLoop_figNos (sr fn : List Char) :
    ∀ (pages : List PdfPage) (pidx fig : Nat),
      figNos (chunksOf (pdfPagesLoop sr fn pages pidx fig))
        = (List.range' fig ((pages.map (fun p => pdfOkCount p.images)).sum)).map
            Int.ofNat := by
  intro pages
  induction pages with
  | nil => intro pidx fig; rfl
  | cons p ps ih =>
    intro pidx fig
    simp only [pdfPagesLoop]
    rw [chunksOf_append, chunksOf_append, figNos_append, figNos_append]
    rw [chunksOf_text_events, figNos_text_block]
    rw [pdfImagesLoop_figNos, pdfImagesLoop_snd, ih]
    rw [List.nil_append, ← List.map_append]
    have hr : List.range' fig (pdfOkCount p.images)
        ++ List.range' (fig + pdfOkCount p.images)
            ((ps.map (fun q => pdfOkCount q.images)).sum)
        = List.range' fig ((ps.map (fun q => pdfOkCount q.images)).sum
            + pdfOkCount p.images) := by
      have h1 : fig + pdfOkCount p.images = fig + 1 * pdfOkCount p.images := by ring
      rw [h1, List.range'_append]
    rw [hr]
    have h2 : ((p :: ps).map (fun q => pdfOkCount q.images)).sum
        = pdfOkCount p.images + (ps.map (fun q => pdfOkCount q.images)).sum := by
      simp [List.map_cons, List.sum_cons]
    rw [h2, Nat.add_comm (pdfOkCount p.images)]

theorem pdfPagesLoop_paths (sr fn : List Char) :
    ∀ (pages : List PdfPage) (pidx fig : Nat),
      imagePaths (chunksOf (pdfPagesLoop sr fn pages pidx fig))
        = ((labelFrom (pidx + 1) pages).map
            (fun pp => (labelFrom 1 pp.2.images).filterMap
              (fun x => if x.2.ok then some (pdfImgRel sr pp.1 x.1)
                else Option.none))).flatten := by
  intro pages
  induction pages with
  | nil => intro pidx fig; rfl
  | cons p ps ih =>
    intro pidx fig
    simp only [pdfPagesLoop]
    rw [chunksOf_append, chunksOf_append, imagePaths_append, imagePaths_append]
    rw [chunksOf_text_events, imagePaths_text_block]
    rw [pdfImagesLoop_paths, ih]
    rw [show labelFrom (pidx + 1) (p :: ps)
        = (pidx + 1, p) :: labelFrom (pidx + 2) ps from rfl]
    rw [List.map_cons, List.flatten_cons, List.nil_append]

theorem pdfPagesLoop_textChunks (sr fn : List Char) :
    ∀ (pages : List PdfPage) (pidx fig : Nat),
      textChunks (chunksOf (pdfPagesLoop sr fn pages pidx fig))
        = ((labelFrom (pidx + 1) pages).map
            (fun pp => (chunkText pp.2.text CHUNK_SIZE CHUNK_OVERLAP).map
              (fun ch => text_meta_chunk ch fn (some (Int.ofNat pp.1))))).flatten := by
  intro pages
  induction pages with
  | nil => intro pidx fig; rfl
  | cons p ps ih =>
    intro pidx fig
    simp only [pdfPagesLoop]
    rw [chunksOf_append, chunksOf_append, textChunks_append, textChunks_append]
    rw [chunksOf_text_events, textChunks_text_block]
    rw [pdfImagesLoop_textChunks, ih]
    rw [show labelFrom (pidx + 1) (p :: ps)
        = (pidx + 1, p) :: labelFrom (pidx + 2) ps from rfl]
    rw [List.map_cons, List.flatten_cons, List.append_nil]

theorem pdfPagesLoop_imageCount (sr fn : List Char) :
    ∀ (pages : List PdfPage) (pidx fig : Nat),
      (imageChunks (chunksOf (pdfPagesLoop sr fn pages pidx fig))).length
        = (pages.map (fun p => pdfOkCount p.images)).sum := by
  intro pages
  induction pages with
  | nil => intro pidx fig; rfl
  | cons p ps ih =>
    intro pidx fig
    simp only [pdfPagesLoop]
    rw [chunksOf_append, chunksOf_append, imageChunks_append, imageChunks_append]
    rw [chunksOf_text_events, imageChunks_text_block]
    rw [List.length_append, List.length_append, List.length_nil]
    rw [pdfImagesLoop_imageCount, ih]
    simp [List.map_cons, List.sum_cons]

theorem pdfPagesLoop_safe (sr fn : List Char) :
    ∀ (pages : List PdfPage) (pidx fig : Nat),
      SafeTrace (pdfPagesLoop sr fn pages pidx fig) := by
  intro pages
  induction pages with
  | nil => intro pidx fig; exact SafeTrace.nil
  | cons p ps ih =>
    intro pidx fig
    simp only [pdfPagesLoop]
    exact safeTrace_append
      (safeTrace_append (safeTrace_text_events _ _ _)
        (pdfImagesLoop_safe _ _ _ _ _ _ _)) (ih _ _)

theorem pdfPagesLoop_shape (sr fn : List Char) :
    ∀ (pages : List PdfPage) (pidx fig : Nat) (c : Chunk),
      c ∈ chunksOf (pdfPagesLoop sr fn pages pidx fig) →
      (∃ t o pg, c = text_meta_chunk t o pg) ∨
      (∃ a b o pg f cf, c = image_meta_chunk a b o pg f cf) := by
  intro pages
  induction pages with
  | nil =>
    intro pidx fig c hc
    exact absurd hc (by simp [pdfPagesLoop, chunksOf])
  | cons p ps ih =>
    intro pidx fig c hc
    simp only [pdfPagesLoop] at hc
    rw [chunksOf_append, chunksOf_append, chunksOf_text_events] at hc
    rcases List.mem_append.mp hc with h1 | h1
    · rcases List.mem_append.mp h1 with h2 | h2
      · obtain ⟨t, _, ht⟩ := List.mem_map.mp h2
        exact Or.inl ⟨t, fn, some (Int.ofNat (pidx + 1)), ht.symm⟩
      · exact Or.inr (pdfImagesLoop_shape _ _ _ _ _ _ _ c h2)
    · exact ih _ _ c h1

theorem pdfPagesLoop_page (sr fn : List Char) :
    ∀ (pages : List PdfPage) (pidx fig : Nat) (c : Chunk),
      c ∈ chunksOf (pdfPagesLoop sr fn pages pidx fig) →
      ∃ k : Int, c.meta.lookup "page" = some (Val.i k) ∧ 1 ≤ k := by
  intro pages
  induction pages with
  | nil =>
    intro pidx fig c hc
    exact absurd hc (by simp [pdfPagesLoop, chunksOf])
  | cons p ps ih =>
    intro pidx fig c hc
    simp only [pdfPagesLoop] at hc
    rw [chunksOf_append, chunksOf_append, chunksOf_text_events] at hc
    rcases List.mem_append.mp hc with h1 | h1
    · rcases List.mem_append.mp h1 with h2 | h2
      · obtain ⟨t, _, ht⟩ := List.mem_map.mp h2
        refine ⟨Int.ofNat (pidx + 1), ?_,
          Int.ofNat_le.mpr (Nat.le_add_left 1 pidx)⟩
        rw [← ht]
        exact lookup_page_text _ _ _
      · refine ⟨Int.ofNat (pidx + 1), ?_,
          Int.ofNat_le.mpr (Nat.le_add_left 1 pidx)⟩
        exact pdfImagesLoop_page _ _ _ _ _ _ _ c h2
    · exact ih _ _ c h1

end Rag

namespace Rag

theorem docxOkCount_cons_true (part : DocxPart) (rest : List DocxPart)
    (h : part.ok = true) : docxOkCount (part :: rest) = docxOkCount rest + 1 := by
  simp [docxOkCount, List.filter_cons, h]

theorem docxOkCount_cons_false (part : DocxPart) (rest : List DocxPart)
    (h : part.ok = false) : docxOkCount (part :: rest) = docxOkCount rest := by
  simp [docxOkCount, List.filter_cons, h]

theorem docxImagesLoop_figNos (sr fn cap : List Char) :
    ∀ (parts : List DocxPart) (i fig : Nat),
      figNos (chunksOf (docxImagesLoop sr fn cap parts i fig))
        = (List.range' fig (docxOkCount parts)).map Int.ofNat := by
  intro parts
  induction parts with
  | nil => intro i fig; rfl
  | cons part rest ih =>
    intro i fig
    cases h : part.ok with
    | false =>
      simp only [docxImagesLoop, h, Bool.false_eq_true, if_false]
      rw [ih (i + 1) fig, docxOkCount_cons_false part rest h]
    | true =>
      simp only [docxImagesLoop, h, if_true]
      rw [chunksOf_cons_write, chunksOf_cons_emit, figNos_cons_img]
      rw [ih (i + 1) (fig + 1), docxOkCount_cons_true part rest h]
      rw [List.range'_succ]
      rfl

theorem docxImagesLoop_paths (sr fn cap : List Char) :
    ∀ (parts : List DocxPart) (i fig : Nat),
      imagePaths (chunksOf (docxImagesLoop sr fn cap parts i fig))
        = (labelFrom i parts).filterMap
            (fun x => if x.2.ok then
              some (docxImgRel sr x.1 (docxExt x.2.contentType))
            else Option.none) := by
  intro parts
  induction parts with
  | nil => intro i fig; rfl
  | cons part rest ih =>
    intro i fig
    rw [show labelFrom i (part :: rest) = (i, part) :: labelFrom (i + 1) rest from rfl]
    rw [List.filterMap_cons]
    cases h : part.ok with
    | false =>
      simp only [docxImagesLoop, h, Bool.false_eq_true, if_false]
      rw [ih (i + 1) fig]
    | true =>
      simp only [docxImagesLoop, h, if_true]
      rw [chunksOf_cons_write, chunksOf_cons_emit, imagePaths_cons_img]
      rw [ih (i + 1) (fig + 1)]

theorem docxImagesLoop_safe (sr fn cap : List Char) :
    ∀ (parts : List DocxPart) (i fig : Nat),
      SafeTrace (docxImagesLoop sr fn cap parts i fig) := by
  intro parts
  induction parts with
  | nil => intro i fig; exact SafeTrace.nil
  | cons part rest ih =>
    intro i fig
    cases h : part.ok with
    | false =>
      simp only [docxImagesLoop, h, Bool.false_eq_true, if_false]
      exact ih (i + 1) fig
    | true =>
      simp only [docxImagesLoop, h, if_true]
      exact SafeTrace.img _ _ _ (lookup_ip_img _ _ _ _ _ _) (ih (i + 1) (fig + 1))

theorem docxImagesLoop_textChunks (sr fn cap : List Char) :
    ∀ (parts : List DocxPart) (i fig : Nat),
      textChunks (chunksOf (docxImagesLoop sr fn cap parts i fig)) = [] := by
  intro parts
  induction parts with
  | nil => intro i fig; rfl
  | cons part rest ih =>
    intro i fig
    cases h : part.ok with
    | false =>
      simp only [docxImagesLoop, h, Bool.false_eq_true, if_false]
      exact ih (i + 1) fig
    | true =>
      simp only [docxImagesLoop, h, if_true]
      rw [chunksOf_cons_write, chunksOf_cons_emit, textChunks_cons_img]
      exact ih (i + 1) (fig + 1)

theorem docxImagesLoop_imageCount (sr fn cap : List Char) :
    ∀ (parts : List DocxPart) (i fig : Nat),
      (imageChunks (chunksOf (docxImagesLoop sr fn cap parts i fig))).length
        = docxOkCount parts := by
  intro parts
  induction parts with
  | nil => intro i fig; rfl
  | cons part rest ih =>
    intro i fig
    cases h : part.ok with
    | false =>
      simp only [docxImagesLoop, h, Bool.false_eq_true, if_false]
      rw [ih (i + 1) fig, docxOkCount_cons_false part rest h]
    | true =>
      simp only [docxImagesLoop, h, if_true]
      rw [chunksOf_cons_write, chunksOf_cons_emit, imageChunks_cons_img]
      rw [List.length_cons, ih (i + 1) (fig + 1), docxOkCount_cons_true part rest h]

theorem docxImagesLoop_shape (sr fn cap : List Char) :
    ∀ (parts : List DocxPart) (i fig : Nat) (c : Chunk),
      c ∈ chunksOf (docxImagesLoop sr fn cap parts i fig) →
      ∃ a b o p f cf, c = image_meta_chunk a b o p f cf := by
  intro parts
  induction parts with
  | nil =>
    intro i fig c hc
    exact absurd hc (by simp [docxImagesLoop, chunksOf])
  | cons part rest ih =>
    intro i fig c hc
    cases h : part.ok with
    | false =>
      rw [show docxImagesLoop sr fn cap (part :: rest) i fig
          = docxImagesLoop sr fn cap rest (i + 1) fig by
        simp only [docxImagesLoop, h, Bool.false_eq_true, if_false]] at hc
      exact ih (i + 1) fig c hc
    | true =>
      simp only [docxImagesLoop, h, if_true] at hc
      rw [chunksOf_cons_write, chunksOf_cons_emit] at hc
      rcases List.mem_cons.mp hc with h1 | h1
      · exact ⟨_, _, _, _, _, _, h1⟩
      · exact ih (i + 1) (fig + 1) c h1

theorem docxImagesLoop_page (sr fn cap : List Char) :
    ∀ (parts : List DocxPart) (i fig : Nat) (c : Chunk),
      c ∈ chunksOf (docxImagesLoop sr fn cap parts i fig) →
      c.meta.lookup "page" = some Val.none := by
  intro parts
  induction parts with
  | nil =>
    intro i fig c hc
    exact absurd hc (by simp [docxImagesLoop, chunksOf])
  | cons part rest ih =>
    intro i fig c hc
    cases h : part.ok with
    | false =>
      rw [show docxImagesLoop sr fn cap (part :: rest) i fig
          = docxImagesLoop sr fn cap rest (i + 1) fig by
        simp only [docxImagesLoop, h, Bool.false_eq_true, if_false]] at hc
      exact ih (i + 1) fig c hc
    | true =>
      simp only [docxImagesLoop, h, if_true] at hc
      rw [chunksOf_cons_write, chunksOf_cons_emit] at hc
      rcases List.mem_cons.mp hc with h1 | h1
      · rw [h1]
        exact lookup_page_img _ _ _ _ _ _
      · exact ih (i + 1) (fig + 1) c h1

end Rag

namespace Rag

theorem pyOrElse_self (x : List Char) : pyOrElse x (pyOrElse x []) = x := by
  unfold pyOrElse
  by_cases h : x = []
  · simp [h]
  · simp [h]

theorem okList_cons_text (t : List Char) (rest : List PptxShape) :
    ((PptxShape.text t :: rest).filterMap picOf).filter (fun p => p.ok)
      = (rest.filterMap picOf).filter (fun p => p.ok) := rfl

theorem okList_cons_other (rest : List PptxShape) :
    ((PptxShape.other :: rest).filterMap picOf).filter (fun p => p.ok)
      = (rest.filterMap picOf).filter (fun p => p.ok) := rfl

theorem okList_cons_pic_true (p : PptxPic) (rest : List PptxShape) (h : p.ok = true) :
    ((PptxShape.pic p :: rest).filterMap picOf).filter (fun q => q.ok)
      = p :: (rest.filterMap picOf).filter (fun q => q.ok) := by
  rw [show (PptxShape.pic p :: rest).filterMap picOf
      = p :: rest.filterMap picOf from rfl]
  rw [List.filter_cons, if_pos (by simp [h])]

theorem okList_cons_pic_false (p : PptxPic) (rest : List PptxShape) (h : p.ok = false) :
    ((PptxShape.pic p :: rest).filterMap picOf).filter (fun q => q.ok)
      = (rest.filterMap picOf).filter (fun q => q.ok) := by
  rw [show (PptxShape.pic p :: rest).filterMap picOf
      = p :: rest.filterMap picOf from rfl]
  rw [List.filter_cons, if_neg (by simp [h])]

theorem pptxShapesLoop_snd (sr fn : List Char) (sno : Nat) (ctx : List Char) :
    ∀ (shapes : List PptxShape) (fig : Nat),
      (pptxShapesLoop sr fn sno ctx shapes fig).2
        = fig + ((shapes.filterMap picOf).filter (fun p => p.ok)).length := by
  intro shapes
  induction shapes with
  | nil => intro fig; rfl
  | cons sh rest ih =>
    intro fig
    cases sh with
    | text t =>
      simp only [pptxShapesLoop]
      rw [ih fig, okList_cons_text]
    | other =>
      simp only [pptxShapesLoop]
      rw [ih fig, okList_cons_other]
    | pic p =>
      cases h : p.ok with
      | false =>
        simp only [pptxShapesLoop, h, Bool.false_eq_true, if_false]
        rw [ih fig, okList_cons_pic_false p rest h]
      | true =>
        simp only [pptxShapesLoop, h, if_true]
        rw [ih (fig + 1), okList_cons_pic_true p rest h]
        rw [List.length_cons]
        omega

theorem pptxShapesLoop_figNos (sr fn : List Char) (sno : Nat) (ctx : List Char) :
    ∀ (shapes : List PptxShape) (fig : Nat),
      figNos (chunksOf (pptxShapesLoop sr fn sno ctx shapes fig).1)
        = (List.range' fig
            (((shapes.filterMap picOf).filter (fun p => p.ok)).length)).map
            Int.ofNat := by
  intro shapes
  induction shapes with
  | nil => intro fig; rfl
  | cons sh rest ih =>
    intro fig
    cases sh with
    | text t =>
      simp only [pptxShapesLoop]
      rw [ih fig, okList_cons_text]
    | other =>
      simp only [pptxShapesLoop]
      rw [ih fig, okList_cons_other]
    | pic p =>
      cases h : p.ok with
      | false =>
        simp only [pptxShapesLoop, h, Bool.false_eq_true, if_false]
        rw [ih fig, okList_cons_pic_false p rest h]
      | true =>
        simp only [pptxShapesLoop, h, if_true]
        rw [chunksOf_cons_write, chunksOf_cons_emit, figNos_cons_img]
        rw [ih (fig + 1), okList_cons_pic_true p rest h]
        rw [List.length_cons, List.range'_succ]
        rfl

theorem pptxShapesLoop_paths (sr fn : List Char) (sno : Nat) (ctx : List Char) :
    ∀ (shapes : List PptxShape) (fig : Nat),
      imagePaths (chunksOf (pptxShapesLoop sr fn sno ctx shapes fig).1)
        = (labelFrom fig ((shapes.filterMap picOf).filter (fun p => p.ok))).map
            (fun x => pptxImgRel sr sno x.1 (pptxEffExt x.2)) := by
  intro shapes
  induction shapes with
  | nil => intro fig; rfl
  | cons sh rest ih =>
    intro fig
    cases sh with
    | text t =>
      simp only [pptxShapesLoop]
      rw [ih fig, okList_cons_text]
    | other =>
      simp only [pptxShapesLoop]
      rw [ih fig, okList_cons_other]
    | pic p =>
      cases h : p.ok with
      | false =>
        simp only [pptxShapesLoop, h, Bool.false_eq_true, if_false]
        rw [ih fig, okList_cons_pic_false p rest h]
      | true =>
        simp only [pptxShapesLoop, h, if_true]
        rw [chunksOf_cons_write, chunksOf_cons_emit, imagePaths_cons_img]
        rw [ih (fig + 1), okList_cons_pic_true p rest h]
        rfl

theorem pptxShapesLoop_captions (sr fn : List Char) (sno : Nat) (ctx : List Char) :
    ∀ (shapes : List PptxShape) (fig : Nat),
      captionsOf (chunksOf (pptxShapesLoop sr fn sno ctx shapes fig).1)
        = ((shapes.filterMap picOf).filter (fun p => p.ok)).map
            (fun p => pptxCaption ctx p) := by
  intro shapes
  induction shapes with
  | nil => intro fig; rfl
  | cons sh rest ih =>
    intro fig
    cases sh with
    | text t =>
      simp only [pptxShapesLoop]
      rw [ih fig, okList_cons_text]
    | other =>
      simp only [pptxShapesLoop]
      rw [ih fig, okList_cons_other]
    | pic p =>
      cases h : p.ok with
      | false =>
        simp only [pptxShapesLoop, h, Bool.false_eq_true, if_false]
        rw [ih fig, okList_cons_pic_false p rest h]
      | true =>
        simp only [pptxShapesLoop, h, if_true]
        rw [chunksOf_cons_write, chunksOf_cons_emit, captionsOf_cons_img]
        rw [ih (fig + 1), okList_cons_pic_true p rest h]
        rw [List.map_cons]
        rw [show (Option.getD (some (pptxCaption ctx p)) []) = pptxCaption ctx p from rfl]
        rw [pyOrElse_self]

theorem pptxShapesLoop_safe (sr fn : List Char) (sno : Nat) (ctx : List Char) :
    ∀ (shapes : List PptxShape) (fig : Nat),
      SafeTrace (pptxShapesLoop sr fn sno ctx shapes fig).1 := by
  intro shapes
  induction shapes with
  | nil => intro fig; exact SafeTrace.nil
  | cons sh rest ih =>
    intro fig
    cases sh with
    | text t =>
      simp only [pptxShapesLoop]
      exact ih fig
    | other =>
      simp only [pptxShapesLoop]
      exact ih fig
    | pic p =>
      cases h : p.ok with
      | false =>
        simp only [pptxShapesLoop, h, Bool.false_eq_true, if_false]
        exact ih fig
      | true =>
        simp only [pptxShapesLoop, h, if_true]
        exact SafeTrace.img _ _ _ (lookup_ip_img _ _ _ _ _ _) (ih (fig + 1))

theorem pptxShapesLoop_textChunks (sr fn : List Char) (sno : Nat) (ctx : List Char) :
    ∀ (shapes : List PptxShape) (fig : Nat),
      textChunks (chunksOf (pptxShapesLoop sr fn sno ctx shapes fig).1) = [] := by
  intro shapes
  induction shapes with
  | nil => intro fig; rfl
  | cons sh rest ih =>
    intro fig
    cases sh with
    | text t =>
      simp only [pptxShapesLoop]
      exact ih fig
    | other =>
      simp only [pptxShapesLoop]
      exact ih fig
    | pic p =>
      cases h : p.ok with
      | false =>
        simp only [pptxShapesLoop, h, Bool.false_eq_true, if_false]
        exact ih fig
      | true =>
        simp only [pptxShapesLoop, h, if_true]
        rw [chunksOf_cons_write, chunksOf_cons_emit, textChunks_cons_img]
        exact ih (fig + 1)

theorem pptxShapesLoop_imageCount (sr fn : List Char) (sno : Nat) (ctx : List Char) :
    ∀ (shapes : List PptxShape) (fig : Nat),
      (imageChunks (chunksOf (pptxShapesLoop sr fn sno ctx shapes fig).1)).length
        = ((shapes.filterMap picOf).filter (fun p => p.ok)).length := by
  intro shapes
  induction shapes with
  | nil => intro fig; rfl
  | cons sh rest ih =>
    intro fig
    cases sh with
    | text t =>
      simp only [pptxShapesLoop]
      rw [ih fig, okList_cons_text]
    | other =>
      simp only [pptxShapesLoop]
      rw [ih fig, okList_cons_other]
    | pic p =>
      cases h : p.ok with
      | false =>
        simp only [pptxShapesLoop, h, Bool.false_eq_true, if_false]
        rw [ih fig, okList_cons_pic_false p rest h]
      | true =>
        simp only [pptxShapesLoop, h, if_true]
        rw [chunksOf_cons_write, chunksOf_cons_emit, imageChunks_cons_img]
        rw [List.length_cons, ih (fig + 1), okList_cons_pic_true p rest h]
        rfl

theorem pptxShapesLoop_shape (sr fn : List Char) (sno : Nat) (ctx : List Char) :
    ∀ (shapes : List PptxShape) (fig : Nat) (c : Chunk),
      c ∈ chunksOf (pptxShapesLoop sr fn sno ctx shapes fig).1 →
      ∃ a b o p f cf, c = image_meta_chunk a b o p f cf := by
  intro shapes
  induction shapes with
  | nil =>
    intro fig c hc
    exact absurd hc (by simp [pptxShapesLoop, chunksOf])
  | cons sh rest ih =>
    intro fig c hc
    cases sh with
    | text t =>
      simp only [pptxShapesLoop] at hc
      exact ih fig c hc
    | other =>
      simp only [pptxShapesLoop] at hc
      exact ih fig c hc
    | pic p =>
      cases h : p.ok with
      | false =>
        simp only [pptxShapesLoop, h, Bool.false_eq_true, if_false] at hc
        exact ih fig c hc
      | true =>
        simp only [pptxShapesLoop, h, if_true] at hc
        rw [chunksOf_cons_write, chunksOf_cons_emit] at hc
        rcases List.mem_cons.mp hc with h1 | h1
        · exact ⟨_, _, _, _, _, _, h1⟩
        · exact ih (fig + 1) c h1

theorem pptxShapesLoop_page (sr fn : List Char) (sno : Nat) (ctx : List Char) :
    ∀ (shapes : List PptxShape) (fig : Nat) (c : Chunk),
      c ∈ chunksOf (pptxShapesLoop sr fn sno ctx shapes fig).1 →
      c.meta.lookup "page" = some (Val.i (Int.ofNat sno)) := by
  intro shapes
  induction shapes with
  | nil =>
    intro fig c hc
    exact absurd hc (by simp [pptxShapesLoop, chunksOf])
  | cons sh rest ih =>
    intro fig c hc
    cases sh with
    | text t =>
      simp only [pptxShapesLoop] at hc
      exact ih fig c hc
    | other =>
      simp only [pptxShapesLoop] at hc
      exact ih fig c hc
    | pic p =>
      cases h : p.ok with
      | false =>
        simp only [pptxShapesLoop, h, Bool.false_eq_true, if_false] at hc
        exact ih fig c hc
      | true =>
        simp only [pptxShapesLoop, h, if_true] at hc
        rw [chunksOf_cons_write, chunksOf_cons_emit] at hc
        rcases List.mem_cons.mp hc with h1 | h1
        · rw [h1]
          exact lookup_page_img _ _ _ _ _ _
        · exact ih (fig + 1) c h1

end Rag

namespace Rag

theorem labelFrom_append {α : Type} :
    ∀ (l1 l2 : List α) (n : Nat),
      labelFrom n (l1 ++ l2) = labelFrom n l1 ++ labelFrom (n + l1.length) l2 := by
  intro l1
  induction l1 with
  | nil => intro l2 n; simp [labelFrom]
  | cons a l1 ih =>
    intro l2 n
    rw [List.cons_append]
    rw [show labelFrom n (a :: (l1 ++ l2)) = (n, a) :: labelFrom (n + 1) (l1 ++ l2) from rfl]
    rw [ih l2 (n + 1)]
    rw [show labelFrom n (a :: l1) = (n, a) :: labelFrom (n + 1) l1 from rfl]
    rw [List.cons_append, List.length_cons]
    have hidx : n + (l1.length + 1) = n + 1 + l1.length := by omega
    rw [hidx]

theorem labelFrom_map {α β : Type} (g : α → β) :
    ∀ (l : List α) (n : Nat),
      labelFrom n (l.map g) = (labelFrom n l).map (fun x => (x.1, g x.2)) := by
  intro l
  induction l with
  | nil => intro n; rfl
  | cons a l ih =>
    intro n
    rw [List.map_cons]
    rw [show labelFrom n (g a :: List.map g l) = (n, g a) :: labelFrom (n + 1) (List.map g l) from rfl]
    rw [ih (n + 1)]
    rfl

theorem pptxSlideOkCount_eq (s : PptxSlide) :
    pptxSlideOkCount s = ((s.shapes.filterMap picOf).filter (fun p => p.ok)).length := rfl

theorem okPics_eq (s : PptxSlide) :
    okPics s = (s.shapes.filterMap picOf).filter (fun p => p.ok) := rfl

theorem pptxSlidesLoop_figNos (sr fn : List Char) :
    ∀ (slides : List PptxSlide) (sidx fig : Nat),
      figNos (chunksOf (pptxSlidesLoop sr fn slides sidx fig))
        = (List.range' fig ((slides.map pptxSlideOkCount).sum)).map Int.ofNat := by
  intro slides
  induction slides with
  | nil => intro sidx fig; rfl
  | cons s ss ih =>
    intro sidx fig
    simp only [pptxSlidesLoop]
    rw [chunksOf_append, chunksOf_append, figNos_append, figNos_append]
    rw [chunksOf_text_events, figNos_text_block]
    rw [pptxShapesLoop_figNos, pptxShapesLoop_snd, ih]
    rw [List.nil_append, ← List.map_append]
    rw [← pptxSlideOkCount_eq]
    have hr : List.range' fig (pptxSlideOkCount s)
        ++ List.range' (fig + pptxSlideOkCount s) ((ss.map pptxSlideOkCount).sum)
        = List.range' fig ((ss.map pptxSlideOkCount).sum + pptxSlideOkCount s) := by
      have h1 : fig + pptxSlideOkCount s = fig + 1 * pptxSlideOkCount s := by ring
      rw [h1, List.range'_append]
    rw [hr]
    have h2 : ((s :: ss).map pptxSlideOkCount).sum
        = pptxSlideOkCount s + (ss.map pptxSlideOkCount).sum := by
      simp [List.map_cons, List.sum_cons]
    rw [h2, Nat.add_comm (pptxSlideOkCount s)]

theorem pptxSlidesLoop_captions (sr fn : List Char) :
    ∀ (slides : List PptxSlide) (sidx fig : Nat),
      captionsOf (chunksOf (pptxSlidesLoop sr fn slides sidx fig))
        = (slides.map (fun s => (okPics s).map
            (fun p => pptxCaption ((normWs (slideText s)).take 300) p))).flatten := by
  intro slides
  induction slides with
  | nil => intro sidx fig; rfl
  | cons s ss ih =>
    intro sidx fig
    simp only [pptxSlidesLoop]
    rw [chunksOf_append, chunksOf_append, captionsOf_append, captionsOf_append]
    rw [chunksOf_text_events, captionsOf_text_block]
    rw [pptxShapesLoop_captions, ih]
    rw [List.map_cons, List.flatten_cons, List.nil_append]
    rfl

theorem pptxSlidesLoop_paths (sr fn : List Char) :
    ∀ (slides : List PptxSlide) (sidx fig : Nat),
      imagePaths (chunksOf (pptxSlidesLoop sr fn slides sidx fig))
        = (labelFrom fig (okPicsWithSlide slides sidx)).map
            (fun x => pptxImgRel sr x.2.1 x.1 (pptxEffExt x.2.2)) := by
  intro slides
  induction slides with
  | nil => intro sidx fig; rfl
  | cons s ss ih =>
    intro sidx fig
    simp only [pptxSlidesLoop]
    rw [chunksOf_append, chunksOf_append, imagePaths_append, imagePaths_append]
    rw [chunksOf_text_events, imagePaths_text_block]
    rw [pptxShapesLoop_paths, pptxShapesLoop_snd, ih]
    rw [List.nil_append]
    rw [show okPicsWithSlide (s :: ss) sidx
        = ((okPics s).map (fun p => (sidx, p))) ++ okPicsWithSlide ss (sidx + 1) from rfl]
    rw [labelFrom_append, List.map_append]
    rw [labelFrom_map, List.map_map, List.length_map]
    rw [← okPics_eq]
    rfl

theorem pptxSlidesLoop_safe (sr fn : List Char) :
    ∀ (slides : List PptxSlide) (sidx fig : Nat),
      SafeTrace (pptxSlidesLoop sr fn slides sidx fig) := by
  intro slides
  induction slides with
  | nil => intro sidx fig; exact SafeTrace.nil
  | cons s ss ih =>
    intro sidx fig
    simp only [pptxSlidesLoop]
    exact safeTrace_append
      (safeTrace_append (safeTrace_text_events _ _ _)
        (pptxShapesLoop_safe _ _ _ _ _ _)) (ih _ _)

theorem pptxSlidesLoop_imageCount (sr fn : List Char) :
    ∀ (slides : List PptxSlide) (sidx fig : Nat),
      (imageChunks (chunksOf (pptxSlidesLoop sr fn slides sidx fig))).length
        = (slides.map pptxSlideOkCount).sum := by
  intro slides
  induction slides with
  | nil => intro sidx fig; rfl
  | cons s ss ih =>
    intro sidx fig
    simp only [pptxSlidesLoop]
    rw [chunksOf_append, chunksOf_append, imageChunks_append, imageChunks_append]
    rw [chunksOf_text_events, imageChunks_text_block]
    rw [List.length_append, List.length_append, List.length_nil]
    rw [pptxShapesLoop_imageCount, ih]
    simp [List.map_cons, List.sum_cons, pptxSlideOkCount_eq]

theorem pptxSlidesLoop_textChunks (sr fn : List Char) :
    ∀ (slides : List PptxSlide) (sidx fig : Nat),
      textChunks (chunksOf (pptxSlidesLoop sr fn slides sidx fig))
        = ((labelFrom sidx slides).map
            (fun sp => (chunkText (slideText sp.2) CHUNK_SIZE CHUNK_OVERLAP).map
              (fun ch => text_meta_chunk ch fn (some (Int.ofNat sp.1))))).flatten := by
  intro slides
  induction slides with
  | nil => intro sidx fig; rfl
  | cons s ss ih =>
    intro sidx fig
    simp only [pptxSlidesLoop]
    rw [chunksOf_append, chunksOf_append, textChunks_append, textChunks_append]
    rw [chunksOf_text_events, textChunks_text_block]
    rw [pptxShapesLoop_textChunks, ih]
    rw [show labelFrom sidx (s :: ss) = (sidx, s) :: labelFrom (sidx + 1) ss from rfl]
    rw [List.map_cons, List.flatten_cons, List.append_nil]

theorem pptxSlidesLoop_shape (sr fn : List Char) :
    ∀ (slides : List PptxSlide) (sidx fig : Nat) (c : Chunk),
      c ∈ chunksOf (pptxSlidesLoop sr fn slides sidx fig) →
      (∃ t o pg, c = text_meta_chunk t o pg) ∨
      (∃ a b o pg f cf, c = image_meta_chunk a b o pg f cf) := by
  intro slides
  induction slides with
  | nil =>
    intro sidx fig c hc
    exact absurd hc (by simp [pptxSlidesLoop, chunksOf])
  | cons s ss ih =>
    intro sidx fig c hc
    simp only [pptxSlidesLoop] at hc
    rw [chunksOf_append, chunksOf_append, chunksOf_text_events] at hc
    rcases List.mem_append.mp hc with h1 | h1
    · rcases List.mem_append.mp h1 with h2 | h2
      · obtain ⟨t, _, ht⟩ := List.mem_map.mp h2
        exact Or.inl ⟨t, fn, some (Int.ofNat sidx), ht.symm⟩
      · exact Or.inr (pptxShapesLoop_shape _ _ _ _ _ _ c h2)
    · exact ih _ _ c h1

theorem pptxSlidesLoop_page (sr fn : List Char) :
    ∀ (slides : List PptxSlide) (sidx fig : Nat), 1 ≤ sidx →
      ∀ (c : Chunk), c ∈ chunksOf (pptxSlidesLoop sr fn slides sidx fig) →
      ∃ k : Int, c.meta.lookup "page" = some (Val.i k) ∧ 1 ≤ k := by
  intro slides
  induction slides with
  | nil =>
    intro sidx fig _ c hc
    exact absurd hc (by simp [pptxSlidesLoop, chunksOf])
  | cons s ss ih =>
    intro sidx fig hs c hc
    simp only [pptxSlidesLoop] at hc
    rw [chunksOf_append, chunksOf_append, chunksOf_text_events] at hc
    rcases List.mem_append.mp hc with h1 | h1
    · rcases List.mem_append.mp h1 with h2 | h2
      · obtain ⟨t, _, ht⟩ := List.mem_map.mp h2
        refine ⟨Int.ofNat sidx, ?_, Int.ofNat_le.mpr hs⟩
        rw [← ht]
        exact lookup_page_text _ _ _
      · refine ⟨Int.ofNat sidx, ?_, Int.ofNat_le.mpr hs⟩
        exact pptxShapesLoop_page _ _ _ _ _ _ c h2
    · exact ih _ _ (by omega) c h1

end Rag

namespace Rag

theorem load_plain_chunks (fp : List Char) (r : Option (List Char)) :
    chunksOf (load_plain fp r)
      = (chunkText (r.getD []) CHUNK_SIZE CHUNK_OVERLAP).map
          (fun ch => text_meta_chunk ch (basename fp) Option.none) := by
  unfold load_plain
  exact chunksOf_text_events _ _ _

/-- Claim C3: for every loader, the image chunks of one load call
carry figure numbers exactly `1, 2, …, N` (as a list, in traversal
order), where `N` is the count of successfully saved images; failed
extractions do not advance the counter, and the counter restarts at 1
on every invocation (each call starts the fold at 1). -/
theorem figure_numbering (fp : List Char) (dp : PdfDoc) (dd : DocxDoc) (dx : PptxDoc) :
    figNos (chunksOf (load_pdf_with_images fp dp))
      = (List.range' 1 (pdfDocOkCount dp)).map Int.ofNat ∧
    figNos (chunksOf (load_docx_with_images fp dd))
      = (List.range' 1 (docxOkCount dd.parts)).map Int.ofNat ∧
    figNos (chunksOf (load_pptx_with_images fp dx))
      = (List.range' 1 (pptxDocOkCount dx)).map Int.ofNat := by
  refine ⟨?_, ?_, ?_⟩
  · unfold load_pdf_with_images pdfDocOkCount
    exact pdfPagesLoop_figNos _ _ _ 0 1
  · unfold load_docx_with_images
    rw [chunksOf_append, figNos_append, chunksOf_text_events, figNos_text_block,
      List.nil_append]
    exact docxImagesLoop_figNos _ _ _ _ 1 1
  · unfold load_pptx_with_images pptxDocOkCount
    exact pptxSlidesLoop_figNos _ _ _ 1 1

/-- Claim C4: every chunk returned by the dispatcher (hence by any
loader) satisfies the schema invariant: a chunk typed "text" carries
none of `image_path`, `figure_no`, `caption`; a chunk typed "image"
carries all three, with `caption` a string value (possibly empty,
never absent). -/
theorem chunk_schema (fp : List Char) (w : World) (c : Chunk)
    (hc : c ∈ load_and_split_with_images fp w) :
    (c.meta.lookup "type" = some (Val.s "text".toList) →
      c.meta.lookup "image_path" = Option.none ∧
      c.meta.lookup "figure_no" = Option.none ∧
      c.meta.lookup "caption" = Option.none) ∧
    (c.meta.lookup "type" = some (Val.s "image".toList) →
      (∃ pth, c.meta.lookup "image_path" = some (Val.s pth)) ∧
      (∃ k, c.meta.lookup "figure_no" = some (Val.i k)) ∧
      (∃ cap, c.meta.lookup "caption" = some (Val.s cap))) := by
  have hshape : (∃ t o pg, c = text_meta_chunk t o pg) ∨
      (∃ a b o pg f cf, c = image_meta_chunk a b o pg f cf) := by
    unfold load_and_split_with_images at hc
    by_cases h1 : (extOf fp).map Char.toLower = ".pdf".toList
    · rw [if_pos h1] at hc
      unfold load_pdf_with_images at hc
      exact pdfPagesLoop_shape _ _ _ _ _ c hc
    · rw [if_neg h1] at hc
      by_cases h2 : (extOf fp).map Char.toLower = ".docx".toList
      · rw [if_pos h2] at hc
        unfold load_docx_with_images at hc
        rw [chunksOf_append, chunksOf_text_events] at hc
        rcases List.mem_append.mp hc with hm | hm
        · obtain ⟨t, _, ht⟩ := List.mem_map.mp hm
          exact Or.inl ⟨_, _, _, ht.symm⟩
        · exact Or.inr (docxImagesLoop_shape _ _ _ _ _ _ c hm)
      · rw [if_neg h2] at hc
        by_cases h3 : (extOf fp).map Char.toLower = ".pptx".toList
        · rw [if_pos h3] at hc
          unfold load_pptx_with_images at hc
          exact pptxSlidesLoop_shape _ _ _ _ _ c hc
        · rw [if_neg h3] at hc
          have hplain : c ∈ chunksOf (load_plain fp w.plainRead) := by
            by_cases h4 : (extOf fp).map Char.toLower = ".txt".toList
                ∨ (extOf fp).map Char.toLower = ".csv".toList
                ∨ (extOf fp).map Char.toLower = ".md".toList
            · rw [if_pos h4] at hc; exact hc
            · rw [if_neg h4] at hc; exact hc
          rw [load_plain_chunks] at hplain
          obtain ⟨t, _, ht⟩ := List.mem_map.mp hplain
          exact Or.inl ⟨_, _, _, ht.symm⟩
  rcases hshape with ⟨t, o, pg, rfl⟩ | ⟨a, b, o, pg, f, cf, rfl⟩
  · constructor
    · intro _
      exact ⟨lookup_ip_text _ _ _, lookup_fig_text _ _ _, lookup_cap_text _ _ _⟩
    · intro h
      rw [lookup_type_text] at h
      exact absurd (Val.s.inj (Option.some.inj h)) (by decide)
  · constructor
    · intro h
      rw [lookup_type_img] at h
      exact absurd (Val.s.inj (Option.some.inj h)) (by decide)
    · intro _
      exact ⟨⟨b, lookup_ip_img _ _ _ _ _ _⟩,
        ⟨Int.ofNat f, lookup_fig_img _ _ _ _ _ _⟩,
        ⟨_, lookup_cap_img _ _ _ _ _ _⟩⟩

/-- Witness for `chunk_schema`: a text chunk produced by the plain
loader on "a.txt" carries none of the image keys. -/
theorem chunk_schema_witness :
    (text_meta_chunk "hi".toList "a.txt".toList Option.none).meta.lookup "image_path"
      = Option.none ∧
    (text_meta_chunk "hi".toList "a.txt".toList Option.none).meta.lookup "figure_no"
      = Option.none ∧
    (text_meta_chunk "hi".toList "a.txt".toList Option.none).meta.lookup "caption"
      = Option.none := by
  have h := chunk_schema "a.txt".toList ⟨⟨[]⟩, ⟨[], []⟩, ⟨[]⟩, some "hi".toList⟩
    (text_meta_chunk "hi".toList "a.txt".toList Option.none) (by decide)
  exact h.1 (by decide)

/-- Claim C5: the dispatcher is total; it compares the lowercased
extension, routing `.pdf`/`.docx`/`.pptx` to their loaders and every
other extension (including `.txt`/`.csv`/`.md`) to the plain loader;
on an unrecognized extension whose bytes yield no decodable text it
returns zero chunks (and, being a total function, never raises). -/
theorem dispatcher_total (fp : List Char) (w : World) :
    ((extOf fp).map Char.toLower = ".pdf".toList →
      load_and_split_with_images fp w = chunksOf (load_pdf_with_images fp w.pdf)) ∧
    ((extOf fp).map Char.toLower = ".docx".toList →
      load_and_split_with_images fp w = chunksOf (load_docx_with_images fp w.docx)) ∧
    ((extOf fp).map Char.toLower = ".pptx".toList →
      load_and_split_with_images fp w = chunksOf (load_pptx_with_images fp w.pptx)) ∧
    ((extOf fp).map Char.toLower ≠ ".pdf".toList →
      (extOf fp).map Char.toLower ≠ ".docx".toList →
      (extOf fp).map Char.toLower ≠ ".pptx".toList →
      load_and_split_with_images fp w = chunksOf (load_plain fp w.plainRead)) ∧
    ((extOf fp).map Char.toLower ≠ ".pdf".toList →
      (extOf fp).map Char.toLower ≠ ".docx".toList →
      (extOf fp).map Char.toLower ≠ ".pptx".toList →
      normWs (w.plainRead.getD []) = [] →
      load_and_split_with_images fp w = []) := by
  have hplain : (extOf fp).map Char.toLower ≠ ".pdf".toList →
      (extOf fp).map Char.toLower ≠ ".docx".toList →
      (extOf fp).map Char.toLower ≠ ".pptx".toList →
      load_and_split_with_images fp w = chunksOf (load_plain fp w.plainRead) := by
    intro h1 h2 h3
    unfold load_and_split_with_images
    rw [if_neg h1, if_neg h2, if_neg h3]
    by_cases h4 : (extOf fp).map Char.toLower = ".txt".toList
        ∨ (extOf fp).map Char.toLower = ".csv".toList
        ∨ (extOf fp).map Char.toLower = ".md".toList
    · rw [if_pos h4]
    · rw [if_neg h4]
  refine ⟨?_, ?_, ?_, hplain, ?_⟩
  · intro h1
    unfold load_and_split_with_images
    rw [if_pos h1]
  · intro h2
    have h1 : (extOf fp).map Char.toLower ≠ ".pdf".toList := by
      rw [h2]; decide
    unfold load_and_split_with_images
    rw [if_neg h1, if_pos h2]
  · intro h3
    have h1 : (extOf fp).map Char.toLower ≠ ".pdf".toList := by
      rw [h3]; decide
    have h2 : (extOf fp).map Char.toLower ≠ ".docx".toList := by
      rw [h3]; decide
    unfold load_and_split_with_images
    rw [if_neg h1, if_neg h2, if_pos h3]
  · intro h1 h2 h3 hemp
    rw [hplain h1 h2 h3, load_plain_chunks]
    rw [show chunkText (w.plainRead.getD []) CHUNK_SIZE CHUNK_OVERLAP = [] from by
      unfold chunkText
      rw [if_pos hemp]]
    rfl

/-- Witness for `dispatcher_total`: an upper-case `.PDF` extension
routes to the PDF loader, and an unknown `.xyz` file with no decodable
bytes yields zero chunks. -/
theorem dispatcher_total_witness :
    load_and_split_with_images "A.PDF".toList ⟨⟨[]⟩, ⟨[], []⟩, ⟨[]⟩, Option.none⟩
      = chunksOf (load_pdf_with_images "A.PDF".toList ⟨[]⟩) ∧
    load_and_split_with_images "f.xyz".toList ⟨⟨[]⟩, ⟨[], []⟩, ⟨[]⟩, Option.none⟩
      = [] := by
  have h1 := dispatcher_total "A.PDF".toList ⟨⟨[]⟩, ⟨[], []⟩, ⟨[]⟩, Option.none⟩
  have h2 := dispatcher_total "f.xyz".toList ⟨⟨[]⟩, ⟨[], []⟩, ⟨[]⟩, Option.none⟩
  exact ⟨h1.1 (by decide),
    h2.2.2.2.2 (by decide) (by decide) (by decide) (by decide)⟩

end Rag

namespace Rag

/-- Claim C6: in every loader, an image chunk is emitted only after
that image's bytes were successfully written (in each loader's trace,
every emitted image chunk is preceded by the write of its
`image_path`); a failed decode/write emits no chunk (the number of
image chunks equals the number of successful saves), and the text
chunks are a function of the document's text alone, unaffected by
image outcomes. -/
theorem write_before_emit (fp : List Char) (dp : PdfDoc) (dd : DocxDoc) (dx : PptxDoc) :
    (∀ (i : Nat) (c : Chunk) (pth : List Char),
      (load_pdf_with_images fp dp)[i]? = some (Event.emit c) →
      c.meta.lookup "image_path" = some (Val.s pth) →
      ∃ j, j < i ∧ (load_pdf_with_images fp dp)[j]? = some (Event.write pth)) ∧
    (∀ (i : Nat) (c : Chunk) (pth : List Char),
      (load_docx_with_images fp dd)[i]? = some (Event.emit c) →
      c.meta.lookup "image_path" = some (Val.s pth) →
      ∃ j, j < i ∧ (load_docx_with_images fp dd)[j]? = some (Event.write pth)) ∧
    (∀ (i : Nat) (c : Chunk) (pth : List Char),
      (load_pptx_with_images fp dx)[i]? = some (Event.emit c) →
      c.meta.lookup "image_path" = some (Val.s pth) →
      ∃ j, j < i ∧ (load_pptx_with_images fp dx)[j]? = some (Event.write pth)) ∧
    (imageChunks (chunksOf (load_pdf_with_images fp dp))).length = pdfDocOkCount dp ∧
    (imageChunks (chunksOf (load_docx_with_images fp dd))).length
      = docxOkCount dd.parts ∧
    (imageChunks (chunksOf (load_pptx_with_images fp dx))).length
      = pptxDocOkCount dx ∧
    textChunks (chunksOf (load_pdf_with_images fp dp))
      = ((labelFrom 1 dp.pages).map
          (fun pp => (chunkText pp.2.text CHUNK_SIZE CHUNK_OVERLAP).map
            (fun ch => text_meta_chunk ch (basename fp)
              (some (Int.ofNat pp.1))))).flatten ∧
    textChunks (chunksOf (load_docx_with_images fp dd))
      = (chunkText (joinNl ((dd.paragraphs.map strip).filter (fun p => !p.isEmpty)))
          CHUNK_SIZE CHUNK_OVERLAP).map
          (fun ch => text_meta_chunk ch (basename fp) Option.none) ∧
    textChunks (chunksOf (load_pptx_with_images fp dx))
      = ((labelFrom 1 dx.slides).map
          (fun sp => (chunkText (slideText sp.2) CHUNK_SIZE CHUNK_OVERLAP).map
            (fun ch => text_meta_chunk ch (basename fp)
              (some (Int.ofNat sp.1))))).flatten := by
  refine ⟨?_, ?_, ?_, ?_, ?_, ?_, ?_, ?_, ?_⟩
  · intro i c pth hi hp
    exact safeTrace_write_before
      (pdfPagesLoop_safe (slug (rootOf (basename fp))) (basename fp) dp.pages 0 1)
      i c pth hi hp
  · intro i c pth hi hp
    refine safeTrace_write_before ?_ i c pth hi hp
    unfold load_docx_with_images
    exact safeTrace_append (safeTrace_text_events _ _ _)
      (docxImagesLoop_safe _ _ _ _ 1 1)
  · intro i c pth hi hp
    exact safeTrace_write_before
      (pptxSlidesLoop_safe (slug (rootOf (basename fp))) (basename fp) dx.slides 1 1)
      i c pth hi hp
  · unfold load_pdf_with_images pdfDocOkCount
    exact pdfPagesLoop_imageCount _ _ _ 0 1
  · unfold load_docx_with_images
    rw [chunksOf_append, imageChunks_append, chunksOf_text_events,
      imageChunks_text_block, List.length_append, List.length_nil]
    rw [docxImagesLoop_imageCount]
    omega
  · unfold load_pptx_with_images pptxDocOkCount
    exact pptxSlidesLoop_imageCount _ _ _ 1 1
  · unfold load_pdf_with_images
    exact pdfPagesLoop_textChunks _ _ _ 0 1
  · unfold load_docx_with_images
    rw [chunksOf_append, textChunks_append, chunksOf_text_events,
      textChunks_text_block, docxImagesLoop_textChunks, List.append_nil]
  · unfold load_pptx_with_images
    exact pptxSlidesLoop_textChunks _ _ _ 1 1

/-- Witness for `write_before_emit`: on a one-page PDF whose single
image saves successfully, the trace's first event is the write of the
asset referenced by the image chunk emitted right after it. -/
theorem write_before_emit_witness :
    (load_pdf_with_images "d.pdf".toList
        (PdfDoc.mk [PdfPage.mk [] [PdfImage.mk true]]))[0]?
      = some (Event.write "d_assets/d_p1_1.png".toList) := by
  have h := (write_before_emit "d.pdf".toList
    (PdfDoc.mk [PdfPage.mk [] [PdfImage.mk true]])
    (DocxDoc.mk [] []) (PptxDoc.mk [])).1
  obtain ⟨j, hj, hw⟩ := h 1
    (image_meta_chunk [] "d_assets/d_p1_1.png".toList "d.pdf".toList
      (some 1) 1 (some []))
    "d_assets/d_p1_1.png".toList (by decide) (by decide)
  have hj0 : j = 0 := by omega
  rw [hj0] at hw
  exact hw

/-- Claim C7, counterexample to the claim as stated: a PPTX picture
with non-empty alt-text "a␣␣b" (two spaces) yields caption "a b" —
the normalized alt-text, not the alt-text verbatim. -/
theorem pptx_caption_cex :
    captionsOf (chunksOf (load_pptx_with_images "t.pptx".toList
      (PptxDoc.mk [PptxSlide.mk
        [PptxShape.pic (PptxPic.mk ".png".toList "a  b".toList true)]])))
      = ["a b".toList] ∧
    "a  b".toList ≠ [] ∧
    "a b".toList ≠ "a  b".toList := by
  decide

/-- Claim C7 (amended): the caption of every emitted PPTX image chunk
is the whitespace-normalized stripped alt-text when that is non-empty,
and otherwise the normalized slide text truncated to 300 characters. -/
theorem pptx_caption (fp : List Char) (d : PptxDoc) :
    captionsOf (chunksOf (load_pptx_with_images fp d))
      = (d.slides.map (fun s => (okPics s).map
          (fun p => if normWs (strip p.alt) ≠ [] then normWs (strip p.alt)
            else (normWs (slideText s)).take 300))).flatten := by
  unfold load_pptx_with_images
  rw [pptxSlidesLoop_captions]
  congr 1
  apply List.map_congr_left
  intro s _
  apply List.map_congr_left
  intro p _
  unfold pptxCaption pyOrElse
  by_cases h : normWs (strip p.alt) = []
  · simp [h]
  · simp [h]

/-- Claim C8, counterexample to the claim as stated: the single chunk
the DOCX loader produces for a one-paragraph document has the `page`
key present with value `None`, not absent. -/
theorem docx_page_cex :
    (chunksOf (load_docx_with_images "a.docx".toList
        (DocxDoc.mk ["hello".toList] []))).length = 1 ∧
    ((chunksOf (load_docx_with_images "a.docx".toList
        (DocxDoc.mk ["hello".toList] []))).getD 0 (Chunk.mk [] [])).meta.lookup "page"
      = some Val.none ∧
    ¬ (((chunksOf (load_docx_with_images "a.docx".toList
        (DocxDoc.mk ["hello".toList] []))).getD 0 (Chunk.mk [] [])).meta.lookup "page"
      = Option.none) := by
  decide

/-- Claim C8 (amended): every DOCX and plain-text chunk has its `page`
metadata entry present and set to `None` (no page number), while every
PDF and PPTX chunk's `page` entry holds an integer ≥ 1 (page number
for PDF, slide number for PPTX). -/
theorem page_attribution (fp : List Char) (dd : DocxDoc) (r : Option (List Char))
    (dp : PdfDoc) (dx : PptxDoc) :
    (∀ c ∈ chunksOf (load_docx_with_images fp dd),
      c.meta.lookup "page" = some Val.none) ∧
    (∀ c ∈ chunksOf (load_plain fp r),
      c.meta.lookup "page" = some Val.none) ∧
    (∀ c ∈ chunksOf (load_pdf_with_images fp dp),
      ∃ k : Int, c.meta.lookup "page" = some (Val.i k) ∧ 1 ≤ k) ∧
    (∀ c ∈ chunksOf (load_pptx_with_images fp dx),
      ∃ k : Int, c.meta.lookup "page" = some (Val.i k) ∧ 1 ≤ k) := by
  refine ⟨?_, ?_, ?_, ?_⟩
  · intro c hc
    unfold load_docx_with_images at hc
    rw [chunksOf_append, chunksOf_text_events] at hc
    rcases List.mem_append.mp hc with hm | hm
    · obtain ⟨t, _, ht⟩ := List.mem_map.mp hm
      rw [← ht]
      exact lookup_page_text _ _ _
    · exact docxImagesLoop_page _ _ _ _ _ _ c hm
  · intro c hc
    rw [load_plain_chunks] at hc
    obtain ⟨t, _, ht⟩ := List.mem_map.mp hc
    rw [← ht]
    exact lookup_page_text _ _ _
  · intro c hc
    unfold load_pdf_with_images at hc
    exact pdfPagesLoop_page _ _ _ _ _ c hc
  · intro c hc
    unfold load_pptx_with_images at hc
    exact pptxSlidesLoop_page _ _ _ _ _ (by omega) c hc

/-- Witness for `page_attribution`: the DOCX chunk of a one-paragraph
document carries `page = None`. -/
theorem page_attribution_witness :
    (text_meta_chunk "x".toList "a.docx".toList Option.none).meta.lookup "page"
      = some Val.none := by
  have h := (page_attribution "a.docx".toList (DocxDoc.mk ["x".toList] [])
    Option.none (PdfDoc.mk []) (PptxDoc.mk [])).1
  exact h (text_meta_chunk "x".toList "a.docx".toList Option.none) (by decide)

/-- Claim C9, counterexample to the claim as stated: two PPTX decks
with the same base name and the same second picture (slide 1,
sequence index 2) produce different `image_path` values for it
depending on whether the first picture's extraction failed, so PPTX
filenames are not a function of (base name, slide index, sequence
index) independent of earlier failures. -/
theorem filename_determinism_cex :
    imagePaths (chunksOf (load_pptx_with_images "t.pptx".toList
      (PptxDoc.mk [PptxSlide.mk
        [PptxShape.pic (PptxPic.mk ".png".toList [] false),
         PptxShape.pic (PptxPic.mk ".png".toList [] true)]])))
      = ["t_assets/t_s1_1.png".toList] ∧
    imagePaths (chunksOf (load_pptx_with_images "t.pptx".toList
      (PptxDoc.mk [PptxSlide.mk
        [PptxShape.pic (PptxPic.mk ".png".toList [] true),
         PptxShape.pic (PptxPic.mk ".png".toList [] true)]])))
      = ["t_assets/t_s1_1.png".toList, "t_assets/t_s1_2.png".toList] ∧
    "t_assets/t_s1_1.png".toList ≠ "t_assets/t_s1_2.png".toList := by
  decide

/-- Claim C9 (amended): PDF and DOCX image filenames are deterministic
functions of (slugged base name, page index, sequence index within the
page / part list), independent of which other extractions failed;
PPTX filenames instead embed the running figure number — the 1-based
position among all successfully saved pictures of the deck — so an
earlier failure shifts the names of later images, and repeated
extraction of an unchanged document (with identical outcomes) yields
identical paths. -/
theorem filename_determinism (fp : List Char) (dp : PdfDoc) (dd : DocxDoc)
    (dx : PptxDoc) :
    imagePaths (chunksOf (load_pdf_with_images fp dp))
      = ((labelFrom 1 dp.pages).map
          (fun pp => (labelFrom 1 pp.2.images).filterMap
            (fun x => if x.2.ok then
              some (pdfImgRel (slug (rootOf (basename fp))) pp.1 x.1)
            else Option.none))).flatten ∧
    imagePaths (chunksOf (load_docx_with_images fp dd))
      = (labelFrom 1 dd.parts).filterMap
          (fun x => if x.2.ok then
            some (docxImgRel (slug (rootOf (basename fp))) x.1
              (docxExt x.2.contentType))
          else Option.none) ∧
    imagePaths (chunksOf (load_pptx_with_images fp dx))
      = (labelFrom 1 (okPicsWithSlide dx.slides 1)).map
          (fun x => pptxImgRel (slug (rootOf (basename fp))) x.2.1 x.1
            (pptxEffExt x.2.2)) := by
  refine ⟨?_, ?_, ?_⟩
  · unfold load_pdf_with_images
    exact pdfPagesLoop_paths _ _ _ 0 1
  · unfold load_docx_with_images
    rw [chunksOf_append, imagePaths_append, chunksOf_text_events,
      imagePaths_text_block, List.nil_append]
    exact docxImagesLoop_paths _ _ _ _ 1 1
  · unfold load_pptx_with_images
    exact pptxSlidesLoop_paths _ _ _ 1 1

end Rag
